import Mathlib

/-!
# Verification of the hubfs Path Map (`pathmap.go`)

A shallow embedding of the Path Map component of hubfs: the in-memory
visibility map (`Get`, `TryGet`, `IsDirty`, `Set`, `SetIf`, `Purge`), the
on-disk transaction log (replay via `read`/`readTransaction`, writing via
`Write`/`writeBegin`/`writeTransaction`/`writeEnd`), and the storage back
end it consumes.

Modelling conventions:
* Machine bytes are `Nat` with explicit masking (`&&& 0x7f`, `&&& 0x80`).
* A `Pathkey` is the stream of bytes fed to the key hasher.  The source
  derives keys with SHA-256 (Go package `crypto/sha256`, outside this
  repository); the digest is modelled as the hashed stream itself, and the
  always-zero byte 0 of a computed key is kept implicit.  Likewise the
  cumulative SHA-256/96 over a transaction is modelled as the list of data
  records hashed so far.
* Go maps are modelled as association lists without duplicate keys;
  Go map iteration order is determinized to list order.
* The backing file is modelled at record granularity (every on-disk record
  is 16 bytes and the parser keeps 16-byte alignment): a file is a list of
  `DiskRec` plus a count `torn` of trailing bytes short of a record
  boundary, which the reader treats as end of file (a short read of a
  record boundary is EOF in `_pathmapRead`).
* Storage reads always succeed (the model of "the backing file is
  readable"); writes, fsync and truncate can be made to fail through an
  error configuration on the file system state.
-/

namespace Unionfs

/-! ## Constants (`pathmap.go` lines 97-106) -/

def Pathkeylen : Nat := 16

def DIRT : Nat := 0x80
def MASK : Nat := 0x7f
def UNKNOWN : Nat := MASK - 0
def OPAQUE : Nat := MASK - 1
def WHITEOUT : Nat := MASK - 2
def NOTEXIST : Nat := MASK - 3
def MAXVIS : Nat := OPAQUE
def MAXIDX : Nat := NOTEXIST

/-! ## Path keys

`ComputePathkey` (src/fs/union/pathkey.go) hashes the path and places the
digest in bytes 1..15 of the key, leaving byte 0 zero.  Modelled from the
spec: SHA-256 comes from outside the repository and is modelled as the
identity on the hashed byte stream, so a key is the (case-folded) list of
characters fed to the hasher. -/

abbrev Pathkey := List Char

/-- Case folding used for case-insensitive maps: fold the exact byte range
fed to the hasher. -/
def foldc (caseins : Bool) (cs : List Char) : List Char :=
  if caseins then cs.map Char.toLower else cs

/-- `ComputePathkey path caseins`: the key of a whole path. -/
def ComputePathkey (path : String) (caseins : Bool) : Pathkey :=
  foldc caseins path.data

/-! ## The visibility map

A Go `map[Pathkey]uint8` modelled as an association list without duplicate
keys. -/

abbrev Vm := List (Pathkey × Nat)

/-- Lookup, `v, ok = vm[k]`. -/
def vmFind (vm : Vm) (k : Pathkey) : Option Nat :=
  match vm with
  | [] => none
  | (k1, v1) :: rest => if k1 = k then some v1 else vmFind rest k

/-- Update/insert, `vm[k] = v`. -/
def vmInsert (vm : Vm) (k : Pathkey) (v : Nat) : Vm :=
  match vm with
  | [] => [(k, v)]
  | (k1, v1) :: rest => if k1 = k then (k1, v) :: rest else (k1, v1) :: vmInsert rest k v

/-- Deletion, `delete(vm, k)`. -/
def vmErase (vm : Vm) (k : Pathkey) : Vm :=
  match vm with
  | [] => []
  | (k1, v1) :: rest => if k1 = k then rest else (k1, v1) :: vmErase rest k

/-! ## In-memory state -/

/-- The in-memory part of `Pathmap` that the model tracks: the visibility
map `vm`, the dirty list `dl`, the case-insensitivity flag and the file
offset `ofs` (in bytes).  The storage-side fields (`fs`, `path`, `fh`) live
in the separate `Fs` state; locks and the diagnostic `dumpmap` are not
modelled. -/
structure Pathmap where
  caseins : Bool
  vm : Vm
  dl : List Pathkey
  ofs : Nat
deriving Repr, DecidableEq

/-- A fresh in-memory map, as built at the top of `OpenPathmap`. -/
def emptyPm (caseins : Bool) : Pathmap :=
  { caseins := caseins, vm := [], dl := [], ofs := 0 }

/-! ## Get / TryGet / IsDirty (`pathmap.go` lines 159-223) -/

theorem length_dropWhile_le {α : Type} (p : α → Bool) (l : List α) :
    (l.dropWhile p).length ≤ l.length := by
  conv_rhs => rw [← List.takeWhile_append_dropWhile (p := p) (l := l)]
  rw [List.length_append]; omega

theorem length_dropWhile_lt {α : Type} (p : α → Bool) (l : List α)
    (h : l.takeWhile p ≠ []) : (l.dropWhile p).length < l.length := by
  conv_rhs => rw [← List.takeWhile_append_dropWhile (p := p) (l := l)]
  rw [List.length_append]
  cases h2 : l.takeWhile p with
  | nil => exact absurd h2 h
  | cons a t => simp

/-- One map lookup of the `Get` walk: `v, ok = pm.vm[key]` followed by
`isopq = isopq || OPAQUE == v&MASK`; a miss zeroes `v` and `ok`. -/
def lookStep (vm : Vm) (key : Pathkey) (st : Bool × Nat × Bool) : Bool × Nat × Bool :=
  match vmFind vm key with
  | some u => (st.1 || decide (u &&& MASK = OPAQUE), u, true)
  | none => (st.1, 0, false)

/-- The prefix walk of `Get`: scan a run of slashes, look the accumulated
key up when the run starts the path (`j == 0`), scan a segment, look the
accumulated key up, repeat.  `acc` is the state of the incremental
`PathkeyHash`. -/
def getLoop (vm : Vm) (caseins : Bool) (first : Bool) (acc : Pathkey)
    (cs : List Char) (isopq : Bool) (v : Nat) (ok : Bool) :
    Bool × Nat × Bool :=
  let sl := cs.takeWhile (fun c => c = '/')
  if hsl : sl = [] then (isopq, v, ok)
  else
    let acc1 := acc ++ foldc caseins sl
    let cs1 := cs.dropWhile (fun c => c = '/')
    let st1 : Bool × Nat × Bool :=
      if first then lookStep vm acc1 (isopq, v, ok) else (isopq, v, ok)
    let seg := cs1.takeWhile (fun c => ¬ c = '/')
    if seg = [] then st1
    else
      let acc2 := acc1 ++ foldc caseins seg
      let cs2 := cs1.dropWhile (fun c => ¬ c = '/')
      let st2 : Bool × Nat × Bool := lookStep vm acc2 st1
      getLoop vm caseins false acc2 cs2 st2.1 st2.2.1 st2.2.2
termination_by cs.length
decreasing_by
  exact Nat.lt_of_le_of_lt (length_dropWhile_le _ _) (length_dropWhile_lt _ _ hsl)

/-- `Get` (`pathmap.go` line 159): opaqueness and visibility for a path. -/
def Pathmap.Get (pm : Pathmap) (path : String) : Bool × Nat :=
  let r := getLoop pm.vm pm.caseins true [] path.data false 0 false
  if ¬ r.2.2 then (r.1, UNKNOWN)
  else
    let v := r.2.1 &&& MASK
    (r.1, if v = OPAQUE then 0 else v)

/-- `TryGet` (`pathmap.go` line 202): raw visibility for the exact path. -/
def Pathmap.TryGet (pm : Pathmap) (path : String) : Nat × Bool :=
  match vmFind pm.vm (ComputePathkey path pm.caseins) with
  | some v => (v &&& MASK, true)
  | none => (0 &&& MASK, false)

/-- `IsDirty` (`pathmap.go` line 215). -/
def Pathmap.IsDirty (pm : Pathmap) (path : String) : Bool :=
  match vmFind pm.vm (ComputePathkey path pm.caseins) with
  | some v => decide (v &&& DIRT ≠ 0)
  | none => false

/-! ## Set / SetIf and the common setter (`pathmap.go` lines 230-292) -/

/-- The common setter `set` (`pathmap.go` line 270): given the old cell `u`
and the new client value `v`, set the `DIRT` bit iff the visibility kind
changes, collapsing every value `≤ MAXIDX` (index values and `NOTEXIST`)
to `UNKNOWN`; append the key to the dirty list when `DIRT` newly flips. -/
def Pathmap.set (pm : Pathmap) (k : Pathkey) (u v : Nat) : Pathmap :=
  let dirt0 := u &&& DIRT
  let dirt :=
    if dirt0 = 0 then
      let ukind := u &&& MASK
      let vkind := v &&& MASK
      let ukind := if ukind ≤ MAXIDX then UNKNOWN else ukind
      let vkind := if vkind ≤ MAXIDX then UNKNOWN else vkind
      if ukind ≠ vkind then DIRT else 0
    else dirt0
  { pm with
    vm := vmInsert pm.vm k (dirt ||| v)
    dl := if u &&& DIRT ≠ dirt then pm.dl ++ [k] else pm.dl }

/-- `Set` (`pathmap.go` line 230).  The source panics when `MAXVIS < v`;
the model returns the map unchanged there and theorems assume `v ≤ MAXVIS`. -/
def Pathmap.Set (pm : Pathmap) (path : String) (v : Nat) : Pathmap :=
  if MAXVIS < v then pm
  else
    let k := ComputePathkey path pm.caseins
    let u := (vmFind pm.vm k).getD UNKNOWN
    pm.set k u v

/-- `SetIf` (`pathmap.go` line 256): set only if the key already exists. -/
def Pathmap.SetIf (pm : Pathmap) (path : String) (v : Nat) : Pathmap :=
  if MAXVIS < v then pm
  else
    let k := ComputePathkey path pm.caseins
    match vmFind pm.vm k with
    | none => pm
    | some u => pm.set k u v

/-- `Purge` (`pathmap.go` line 622): drop every clean cell whose value is
neither `WHITEOUT` nor `OPAQUE`. -/
def Pathmap.Purge (pm : Pathmap) : Pathmap :=
  { pm with
    vm := pm.vm.filter (fun kv =>
      kv.2 &&& DIRT ≠ 0 ∨ kv.2 = WHITEOUT ∨ kv.2 = OPAQUE) }

/-! ## The on-disk log

Every record is 16 bytes; the high bit of byte 0 separates headers (clear)
from data records (set), so at the record granularity kept by the parser a
file is a list of `DiskRec`.  The cumulative SHA-256/96 over the data
records of a transaction is modelled as the list of records hashed so far
(`Digest`). -/

abbrev Digest := List (Nat × Pathkey)

/-- One 16-byte on-disk record.
* `header ind cmd cnt hash`: byte 0 (`ind`, high bit clear, `'1' = 49` for
  a first chunk and `'0' = 48` otherwise), byte 1 (`cmd`, one of
  `'P' = 80`, `'S' = 83`, `'A' = 65`), bytes 2..3 (`cnt`, little-endian
  record count) and bytes 4..15 (`hash`, the truncated cumulative hash).
* `data v mat`: byte 0 is `DIRT ||| v` (high bit set), bytes 1..15 are the
  key material `mat`. -/
inductive DiskRec where
  | header (ind cmd cnt : Nat) (hash : Digest)
  | data (v : Nat) (mat : Pathkey)
deriving Repr, DecidableEq

/-- The storage back end: the backing file at record granularity plus a
count `torn` of trailing bytes short of a record boundary, and an error
configuration for the mutating operations (`none` = the operation
succeeds).  Reads always succeed in the model. -/
structure Fs where
  recs : List DiskRec
  torn : Nat
  werr : Option Int
  ferr : Option Int
  terr : Option Int
deriving Repr, DecidableEq

/-- An empty backing file on reliable storage. -/
def emptyFs : Fs := { recs := [], torn := 0, werr := none, ferr := none, terr := none }

/-- `'P' == cmd || 'S' == cmd || 'A' == cmd`. -/
def cmdOK (cmd : Nat) : Bool := cmd = 80 || cmd = 83 || cmd = 65

/-- Result of the header-scan loop of `readTransaction`. -/
inductive ScanR where
  | eof (ofs : Nat)
  | abort1 (rs : List DiskRec) (ofs : Nat)
  | abortTrash (rs : List DiskRec) (ofs : Nat)
  | found (cmd cnt : Nat) (hash : Digest) (rs : List DiskRec) (ofs : Nat)
deriving Repr, DecidableEq

/-- The inner header-scan loop of `readTransaction` (`pathmap.go` lines
331-367): skip trash until a chunk-1 header when `ch1` is false; once in a
transaction (`ch1` true), an unexpected `'1'` is pushed back (`abort1`) and
any other non-header record aborts the transaction (`abortTrash`). -/
def headerScan (ch1 : Bool) (rs : List DiskRec) (ofs : Nat) : ScanR :=
  match rs with
  | [] => .eof ofs
  | .header ind cmd cnt hash :: rest =>
    if ch1 ∧ ind = 49 then .abort1 (DiskRec.header ind cmd cnt hash :: rest) ofs
    else if ch1 then
      if ind = 48 ∧ cmdOK cmd then .found cmd cnt hash rest (ofs + Pathkeylen)
      else .abortTrash rest (ofs + Pathkeylen)
    else
      if ind = 49 ∧ cmdOK cmd then .found cmd cnt hash rest (ofs + Pathkeylen)
      else headerScan ch1 rest (ofs + Pathkeylen)
  | .data v mat :: rest =>
    if ch1 then .abortTrash rest (ofs + Pathkeylen)
    else headerScan ch1 rest (ofs + Pathkeylen)

/-- Result of the record-reading loop of `readTransaction`. -/
inductive RecsR where
  | eof (ofs : Nat)
  | done (tmp : Vm) (acc : Digest) (rs : List DiskRec) (ofs : Nat) (leftover : Nat)
deriving Repr, DecidableEq

/-- The record-reading loop of `readTransaction` (`pathmap.go` lines
372-391): read up to `cnt` data records into the temp map, hashing them as
they appear on disk; push back a record whose first byte has the `DIRT`
bit clear (`leftover` counts the records still owed, so the declared count
was met iff `leftover = 0`); end of file mid-loop ends replay. -/
def readRecords (cnt : Nat) (rs : List DiskRec) (tmp : Vm) (acc : Digest) (ofs : Nat) : RecsR :=
  match cnt, rs with
  | 0, rs => .done tmp acc rs ofs 0
  | _ + 1, [] => .eof ofs
  | n + 1, .header ind cmd t hash :: rest =>
    .done tmp acc (DiskRec.header ind cmd t hash :: rest) ofs (n + 1)
  | n + 1, .data v mat :: rest =>
    readRecords n rest (vmInsert tmp mat (v &&& MASK)) (acc ++ [(v &&& MASK, mat)])
      (ofs + Pathkeylen)

/-- Commit of a validated transaction (`pathmap.go` lines 395-411): apply
the temp map to `vm` record by record (`WHITEOUT`/`OPAQUE` insert,
`NOTEXIST` delete, anything else is ignored). -/
def applyTmp (vm : Vm) (tmp : Vm) : Vm :=
  tmp.foldl (fun vm1 kv =>
    if kv.2 = WHITEOUT ∨ kv.2 = OPAQUE then vmInsert vm1 kv.1 kv.2
    else if kv.2 = NOTEXIST then vmErase vm1 kv.1
    else vm1) vm

theorem headerScan_abort1 {ch1 : Bool} {rs rs1 : List DiskRec} {ofs ofs1 : Nat}
    (h : headerScan ch1 rs ofs = .abort1 rs1 ofs1) : rs1.length ≤ rs.length := by
  induction rs generalizing ofs with
  | nil => simp [headerScan] at h
  | cons r rest ih =>
    cases r with
    | header ind cmd cnt hash =>
      rw [headerScan] at h
      split at h
      · cases h; simp
      · split at h
        · split at h <;> cases h
        · split at h
          · cases h
          · exact Nat.le_succ_of_le (ih h)
    | data v mat =>
      rw [headerScan] at h
      split at h
      · cases h
      · exact Nat.le_succ_of_le (ih h)

theorem headerScan_abortTrash {ch1 : Bool} {rs rs1 : List DiskRec} {ofs ofs1 : Nat}
    (h : headerScan ch1 rs ofs = .abortTrash rs1 ofs1) : rs1.length < rs.length := by
  induction rs generalizing ofs with
  | nil => simp [headerScan] at h
  | cons r rest ih =>
    cases r with
    | header ind cmd cnt hash =>
      rw [headerScan] at h
      split at h
      · cases h
      · split at h
        · split at h
          · cases h
          · cases h; simp
        · split at h
          · cases h
          · exact Nat.lt_succ_of_lt (ih h)
    | data v mat =>
      rw [headerScan] at h
      split at h
      · cases h; simp
      · exact Nat.lt_succ_of_lt (ih h)

theorem headerScan_found {ch1 : Bool} {rs rs1 : List DiskRec} {ofs ofs1 cmd cnt : Nat}
    {hash : Digest} (h : headerScan ch1 rs ofs = .found cmd cnt hash rs1 ofs1) :
    rs1.length < rs.length := by
  induction rs generalizing ofs with
  | nil => simp [headerScan] at h
  | cons r rest ih =>
    cases r with
    | header ind cmd2 cnt2 hash2 =>
      rw [headerScan] at h
      split at h
      · cases h
      · split at h
        · split at h
          · cases h; simp
          · cases h
        · split at h
          · cases h; simp
          · exact Nat.lt_succ_of_lt (ih h)
    | data v mat =>
      rw [headerScan] at h
      split at h
      · cases h
      · exact Nat.lt_succ_of_lt (ih h)

theorem readRecords_done {cnt : Nat} {rs rs1 : List DiskRec} {tmp tmp1 : Vm}
    {acc acc1 : Digest} {ofs ofs1 leftover : Nat}
    (h : readRecords cnt rs tmp acc ofs = .done tmp1 acc1 rs1 ofs1 leftover) :
    rs1.length ≤ rs.length := by
  induction cnt generalizing rs tmp acc ofs with
  | zero => rw [readRecords] at h; cases h; exact Nat.le_refl _
  | succ n ih =>
    match rs with
    | [] => rw [readRecords] at h; cases h
    | .header ind cmd t hash :: rest => rw [readRecords] at h; cases h; exact Nat.le_refl _
    | .data v mat :: rest =>
      rw [readRecords] at h
      exact Nat.le_succ_of_le (ih h)

/-- The chunk loop of `readTransaction` (`pathmap.go` lines 331-413):
scan for a header, read its records, fold the validation flag `equ`, and
on an `'S'`/`'A'` chunk commit the transaction when valid. -/
def chunkLoop (rs : List DiskRec) (vm : Vm) (ofs : Nat) (tmp : Vm) (acc : Digest)
    (ch1 : Bool) (equ : Bool) : Int × List DiskRec × Vm × Nat :=
  match hs : headerScan ch1 rs ofs with
  | .eof ofs1 => (0, [], vm, ofs1)
  | .abort1 rs1 ofs1 => (1, rs1, vm, ofs1)
  | .abortTrash rs1 ofs1 => (1, rs1, vm, ofs1)
  | .found cmd cnt hash rs1 ofs1 =>
    match hr : readRecords cnt rs1 tmp acc ofs1 with
    | .eof ofs2 => (0, [], vm, ofs2)
    | .done tmp1 acc1 rs2 ofs2 leftover =>
      let equ1 := equ && (decide (leftover = 0) && decide (hash = acc1))
      if cmd = 83 ∨ cmd = 65 then
        let vm1 := if equ1 then applyTmp (if cmd = 83 then [] else vm) tmp1 else vm
        (1, rs2, vm1, ofs2)
      else chunkLoop rs2 vm ofs2 tmp1 acc1 true equ1
termination_by rs.length
decreasing_by
  exact Nat.lt_of_le_of_lt (readRecords_done hr) (headerScan_found hs)

theorem headerScan_false_ne_abort1 {rs rs1 : List DiskRec} {ofs ofs1 : Nat} :
    headerScan false rs ofs ≠ .abort1 rs1 ofs1 := by
  induction rs generalizing ofs with
  | nil => simp [headerScan]
  | cons r rest ih =>
    cases r with
    | header ind cmd cnt hash =>
      rw [headerScan]
      split
      · simp_all
      · split
        · split <;> simp
        · split
          · simp
          · exact ih
    | data v mat =>
      rw [headerScan]
      split
      · simp_all
      · exact ih

/-- Unfolding equations for `chunkLoop`, one per branch of the definition. -/
theorem chunkLoop_eof {rs : List DiskRec} {vm : Vm} {ofs : Nat} {tmp : Vm} {acc : Digest}
    {ch1 equ : Bool} {ofs1 : Nat} (hs : headerScan ch1 rs ofs = .eof ofs1) :
    chunkLoop rs vm ofs tmp acc ch1 equ = (0, [], vm, ofs1) := by
  rw [chunkLoop.eq_def, hs]

theorem chunkLoop_abort1 {rs rs1 : List DiskRec} {vm : Vm} {ofs ofs1 : Nat} {tmp : Vm}
    {acc : Digest} {ch1 equ : Bool} (hs : headerScan ch1 rs ofs = .abort1 rs1 ofs1) :
    chunkLoop rs vm ofs tmp acc ch1 equ = (1, rs1, vm, ofs1) := by
  rw [chunkLoop.eq_def, hs]

theorem chunkLoop_abortTrash {rs rs1 : List DiskRec} {vm : Vm} {ofs ofs1 : Nat} {tmp : Vm}
    {acc : Digest} {ch1 equ : Bool} (hs : headerScan ch1 rs ofs = .abortTrash rs1 ofs1) :
    chunkLoop rs vm ofs tmp acc ch1 equ = (1, rs1, vm, ofs1) := by
  rw [chunkLoop.eq_def, hs]

theorem chunkLoop_recsEof {rs rs1 : List DiskRec} {vm : Vm} {ofs ofs1 cmd cnt : Nat}
    {hash : Digest} {tmp : Vm} {acc : Digest} {ch1 equ : Bool} {ofs2 : Nat}
    (hs : headerScan ch1 rs ofs = .found cmd cnt hash rs1 ofs1)
    (hr : readRecords cnt rs1 tmp acc ofs1 = .eof ofs2) :
    chunkLoop rs vm ofs tmp acc ch1 equ = (0, [], vm, ofs2) := by
  rw [chunkLoop.eq_def, hs]
  split
  · next heq => cases heq
  · next heq => cases heq
  · next heq => cases heq
  · next heq =>
    cases heq
    split
    · next heq2 => rw [hr] at heq2; cases heq2; rfl
    · next heq2 => rw [hr] at heq2; cases heq2

theorem chunkLoop_commit {rs rs1 rs2 : List DiskRec} {vm : Vm} {ofs ofs1 cmd cnt : Nat}
    {hash : Digest} {tmp tmp1 : Vm} {acc acc1 : Digest} {ch1 equ : Bool}
    {ofs2 leftover : Nat}
    (hs : headerScan ch1 rs ofs = .found cmd cnt hash rs1 ofs1)
    (hr : readRecords cnt rs1 tmp acc ofs1 = .done tmp1 acc1 rs2 ofs2 leftover)
    (hcmd : cmd = 83 ∨ cmd = 65) :
    chunkLoop rs vm ofs tmp acc ch1 equ =
      (1, rs2,
        if equ && (decide (leftover = 0) && decide (hash = acc1)) then
          applyTmp (if cmd = 83 then [] else vm) tmp1
        else vm,
        ofs2) := by
  rw [chunkLoop.eq_def, hs]
  split
  · next heq => cases heq
  · next heq => cases heq
  · next heq => cases heq
  · next heq =>
    cases heq
    split
    · next heq2 => rw [hr] at heq2; cases heq2
    · next heq2 => rw [hr] at heq2; cases heq2; rw [if_pos hcmd]

theorem chunkLoop_next {rs rs1 rs2 : List DiskRec} {vm : Vm} {ofs ofs1 cmd cnt : Nat}
    {hash : Digest} {tmp tmp1 : Vm} {acc acc1 : Digest} {ch1 equ : Bool}
    {ofs2 leftover : Nat}
    (hs : headerScan ch1 rs ofs = .found cmd cnt hash rs1 ofs1)
    (hr : readRecords cnt rs1 tmp acc ofs1 = .done tmp1 acc1 rs2 ofs2 leftover)
    (hcmd : ¬(cmd = 83 ∨ cmd = 65)) :
    chunkLoop rs vm ofs tmp acc ch1 equ =
      chunkLoop rs2 vm ofs2 tmp1 acc1 true
        (equ && (decide (leftover = 0) && decide (hash = acc1))) := by
  conv_lhs => rw [chunkLoop.eq_def]
  rw [hs]
  split
  · next heq => cases heq
  · next heq => cases heq
  · next heq => cases heq
  · next heq =>
    cases heq
    split
    · next heq2 => rw [hr] at heq2; cases heq2
    · next heq2 => rw [hr] at heq2; cases heq2; rw [if_neg hcmd]

theorem chunkLoop_spec (rs : List DiskRec) (vm : Vm) (ofs : Nat) (tmp : Vm) (acc : Digest)
    (ch1 equ : Bool) :
    (chunkLoop rs vm ofs tmp acc ch1 equ).1 = 0 ∨
      ((chunkLoop rs vm ofs tmp acc ch1 equ).1 = 1 ∧
        (chunkLoop rs vm ofs tmp acc ch1 equ).2.1.length ≤ rs.length ∧
        (ch1 = false → (chunkLoop rs vm ofs tmp acc ch1 equ).2.1.length < rs.length)) := by
  induction rs, vm, ofs, tmp, acc, ch1, equ using chunkLoop.induct with
  | case1 rs vm ofs tmp acc ch1 equ ofs1 hs => left; rw [chunkLoop_eof hs]
  | case2 rs vm ofs tmp acc ch1 equ rs1 ofs1 hs =>
    right
    have h1 := headerScan_abort1 hs
    rw [chunkLoop_abort1 hs]
    refine ⟨rfl, h1, fun hch => ?_⟩
    exact absurd (hch ▸ hs) headerScan_false_ne_abort1
  | case3 rs vm ofs tmp acc ch1 equ rs1 ofs1 hs =>
    right
    have h1 := headerScan_abortTrash hs
    rw [chunkLoop_abortTrash hs]
    exact ⟨rfl, Nat.le_of_lt h1, fun _ => h1⟩
  | case4 rs vm ofs tmp acc ch1 equ cmd cnt hash rs1 ofs1 hs ofs2 hr =>
    left; rw [chunkLoop_recsEof hs hr]
  | case5 rs vm ofs tmp acc ch1 equ cmd cnt hash rs1 ofs1 hs tmp1 acc1 rs2 ofs2 leftover hr hcmd =>
    right
    have h1 := headerScan_found hs
    have h2 := readRecords_done hr
    rw [chunkLoop_commit hs hr hcmd]
    exact ⟨rfl, by simp only; omega, fun _ => by simp only; omega⟩
  | case6 rs vm ofs tmp acc ch1 equ cmd cnt hash rs1 ofs1 hs tmp1 acc1 rs2 ofs2 leftover hr equ1 hcmd ih =>
    have h1 := headerScan_found hs
    have h2 := readRecords_done hr
    rw [chunkLoop_next hs hr hcmd]
    rcases ih with h | ⟨ha, hb, _⟩
    · left; exact h
    · right
      have hb2 : (chunkLoop rs2 vm ofs2 tmp1 acc1 true
          (equ && (decide (leftover = 0) && decide (hash = acc1)))).2.1.length ≤ rs2.length := hb
      exact ⟨ha, by omega, fun _ => by omega⟩

/-- `readTransaction` (`pathmap.go` line 319): read a single transaction;
0 on EOF, 1 when a transaction was found (applied or not).  Negative error
codes only arise from failed storage reads, which the model's pure reader
does not produce. -/
def readTransaction (rs : List DiskRec) (vm : Vm) (ofs : Nat) :
    Int × List DiskRec × Vm × Nat :=
  chunkLoop rs vm ofs [] [] false true

theorem readTransaction_spec (rs : List DiskRec) (vm : Vm) (ofs : Nat) :
    (readTransaction rs vm ofs).1 = 0 ∨
      ((readTransaction rs vm ofs).1 = 1 ∧
        (readTransaction rs vm ofs).2.1.length < rs.length) := by
  rcases chunkLoop_spec rs vm ofs [] [] false true with h | ⟨h1, _, h3⟩
  · exact Or.inl h
  · exact Or.inr ⟨h1, h3 rfl⟩

/-- The transaction loop of `read` (`pathmap.go` lines 303-311): apply
transactions until EOF; the result is 1 at EOF (replay succeeded) and a
negative `readTransaction` result would be propagated. -/
def readLoop (rs : List DiskRec) (vm : Vm) (ofs : Nat) : Int × Vm × Nat :=
  match h : readTransaction rs vm ofs with
  | (n, rs1, vm1, ofs1) =>
    if n < 0 then (n, vm1, ofs1)
    else if n = 0 then (1, vm1, ofs1)
    else readLoop rs1 vm1 ofs1
termination_by rs.length
decreasing_by
  rcases readTransaction_spec rs vm ofs with h0 | ⟨h1, h2⟩
  · rw [h] at h0; simp only at h0; omega
  · rw [h] at h2; exact h2

/-- `read` (`pathmap.go` line 298): replay the backing file into memory. -/
def Pathmap.read (pm : Pathmap) (fs : Fs) : Int × Pathmap :=
  let r := readLoop fs.recs pm.vm pm.ofs
  (r.1, { pm with vm := r.2.1, ofs := r.2.2 })

/-- `OpenPathmap` (`pathmap.go` line 112).  Opening/creating the backing
file is modelled as succeeding; replay errors would return a nil map. -/
def OpenPathmap (fs : Fs) (caseins : Bool) : Int × Pathmap :=
  let pm := emptyPm caseins
  let r := pm.read fs
  if r.1 < 0 then (r.1, emptyPm caseins) else (0, r.2)

/-! ## Writing (`pathmap.go` lines 416-604) -/

/-- Positional write at record offset `o` (writes are always whole records
at 16-byte offsets); writing past the end pads, which no reachable call
does. -/
def listWrite (file : List DiskRec) (o : Nat) (recs : List DiskRec) : List DiskRec :=
  (file.take o ++ List.replicate (o - file.length) (DiskRec.header 0 0 0 []) ++ recs)
    ++ file.drop (o + recs.length)

/-- `fs.Write`: returns the byte count on success, the configured error
otherwise. -/
def Fs.write (fs : Fs) (recs : List DiskRec) (o : Nat) : Int × Fs :=
  match fs.werr with
  | some e => (e, fs)
  | none =>
    (((Pathkeylen * recs.length : Nat) : Int),
      { fs with
        recs := listWrite fs.recs o recs
        torn := if fs.recs.length ≤ o + recs.length then 0 else fs.torn })

/-- `fs.Fsync`: the configured result (0 = success). -/
def Fs.fsync (fs : Fs) : Int := fs.ferr.getD 0

/-- `fs.Truncate` to record offset `o`. -/
def Fs.truncate (fs : Fs) (o : Nat) : Int × Fs :=
  match fs.terr with
  | some e => (e, fs)
  | none => (0, { fs with recs := fs.recs.take o, torn := 0 })

/-- `writeBegin` (`pathmap.go` line 449): build the to-be-written map.
Incremental: each dirty-list key is emitted as its cell when its kind is
`WHITEOUT`/`OPAQUE` and as a `NOTEXIST` deletion record otherwise.  Full:
every key of the map is emitted iff its kind is `WHITEOUT`/`OPAQUE`.  In
both modes every visited cell has its `DIRT` bit cleared and the dirty
list is emptied. -/
def Pathmap.writeBegin (pm : Pathmap) (incremental : Bool) : Vm × Pathmap :=
  if incremental then
    let step := fun (st : Vm × Vm) (k : Pathkey) =>
      let v := (vmFind st.2 k).getD 0
      let out :=
        if v &&& MASK = WHITEOUT ∨ v &&& MASK = OPAQUE then vmInsert st.1 k v
        else vmInsert st.1 k NOTEXIST
      (out, vmInsert st.2 k (v &&& MASK))
    let st := pm.dl.foldl step ([], pm.vm)
    (st.1, { pm with vm := st.2, dl := [] })
  else
    let out := pm.vm.filter (fun kv => kv.2 &&& MASK = WHITEOUT ∨ kv.2 &&& MASK = OPAQUE)
    let vm1 := pm.vm.map (fun kv => (kv.1, kv.2 &&& MASK))
    (out, { pm with vm := vm1, dl := [] })

/-- One iteration of the failure loop of `writeEnd` (`pathmap.go` lines
500-510): skip entries whose to-be-written cell has `DIRT` clear; re-dirty
the key when its in-memory cell is clean. -/
def writeEndStep (pm1 : Pathmap) (kv : Pathkey × Nat) : Pathmap :=
  if kv.2 &&& DIRT = 0 then pm1
  else if ((vmFind pm1.vm kv.1).getD 0) &&& DIRT ≠ 0 then pm1
  else { pm1 with vm := vmInsert pm1.vm kv.1 (DIRT ||| ((vmFind pm1.vm kv.1).getD 0)),
                  dl := pm1.dl ++ [kv.1] }

/-- `writeEnd` (`pathmap.go` line 490): on success update `ofs`; on failure
re-dirty each key of `vm` (the to-be-written map) whose `vm` cell has the
`DIRT` bit set and whose in-memory cell is clean. -/
def Pathmap.writeEnd (pm : Pathmap) (n : Int) (ofs : Nat) (vmOut : Vm) : Pathmap :=
  if 0 < n then { pm with ofs := ofs }
  else if n < 0 then vmOut.foldl writeEndStep pm
  else pm

/-- Result of writing a chunk (the `write` closure of `writeTransaction`),
and of the record loop around it. -/
inductive WtR where
  | fail (e : Int) (ofs : Nat) (fs : Fs)
  | ok (acc : Digest) (ofs : Nat) (fs : Fs)
deriving Repr

/-- The `write` closure of `writeTransaction` (`pathmap.go` lines 527-543):
add the buffered records to the running hash, prepend the header
`(chi, cmd, count, hash)` and write buffer and header at `ofs`.  A short
write returns `-EIO = -5`. -/
def flushChunk (fs : Fs) (acc cur : Digest) (chi cmd : Nat) (ofs : Nat) : WtR :=
  let acc1 := acc ++ cur
  let recs := DiskRec.header chi cmd cur.length acc1 :: cur.map (fun r => DiskRec.data r.1 r.2)
  let w := fs.write recs (ofs / Pathkeylen)
  if w.1 < 0 then .fail w.1 ofs w.2
  else if w.1 ≠ ((Pathkeylen * recs.length : Nat) : Int) then .fail (-5) ofs w.2
  else .ok acc1 (ofs + Pathkeylen * recs.length) w.2

/-- Outcome of the record loop of `writeTransaction`: either a failed chunk
write, or the running hash, the still-buffered records, the pending chunk
indicator and the advanced offset. -/
inductive WtLoopR where
  | fail (e : Int) (ofs : Nat) (fs : Fs)
  | ok (acc cur : Digest) (chi : Nat) (ofs : Nat) (fs : Fs)
deriving Repr

/-- The record loop of `writeTransaction` (`pathmap.go` lines 548-564):
append each record of the to-be-written map to the buffer, flushing a
`'P'` chunk whenever the 4096-record buffer is full before the append. -/
def wtLoop (vmOut : Vm) (acc cur : Digest) (chi ofs : Nat) (fs : Fs) : WtLoopR :=
  match vmOut with
  | [] => .ok acc cur chi ofs fs
  | (k, v) :: rest =>
    if 4096 * Pathkeylen ≤ Pathkeylen * (1 + cur.length) then
      match flushChunk fs acc cur chi 80 ofs with
      | .fail e ofs1 fs1 => .fail e ofs1 fs1
      | .ok acc1 ofs1 fs1 => wtLoop rest acc1 [(v &&& MASK, k)] 48 ofs1 fs1
    else wtLoop rest acc (cur ++ [(v &&& MASK, k)]) chi ofs fs

/-- The tail of `writeTransaction` after the record loop and the final
flush (`pathmap.go` lines 578-603): the empty-transaction early return,
the fsync/truncate/fsync sequence and the deferred `writeEnd`. -/
def wtFinish (pm1 : Pathmap) (vmOut : Vm) (truncate sync : Bool) (ofs0 : Nat)
    (fin : WtR) : Int × Pathmap × Fs :=
  match fin with
  | .fail e ofs2 fs2 => (e, pm1.writeEnd e ofs2 vmOut, fs2)
  | .ok _ ofs2 fs2 =>
    if ofs2 = ofs0 then (0, pm1.writeEnd 0 ofs2 vmOut, fs2)
    else
      if (if sync then fs2.fsync else 0) ≠ 0 ∧ (if sync then fs2.fsync else 0) ≠ -38 then
        ((if sync then fs2.fsync else 0), pm1.writeEnd (if sync then fs2.fsync else 0) ofs2 vmOut, fs2)
      else if truncate then
        if (fs2.truncate (ofs2 / Pathkeylen)).1 ≠ 0 then
          ((fs2.truncate (ofs2 / Pathkeylen)).1,
            pm1.writeEnd (fs2.truncate (ofs2 / Pathkeylen)).1 ofs2 vmOut,
            (fs2.truncate (ofs2 / Pathkeylen)).2)
        else
          if (if sync then (fs2.truncate (ofs2 / Pathkeylen)).2.fsync else 0) ≠ 0 ∧
              (if sync then (fs2.truncate (ofs2 / Pathkeylen)).2.fsync else 0) ≠ -38 then
            ((if sync then (fs2.truncate (ofs2 / Pathkeylen)).2.fsync else 0),
              pm1.writeEnd (if sync then (fs2.truncate (ofs2 / Pathkeylen)).2.fsync else 0)
                ofs2 vmOut,
              (fs2.truncate (ofs2 / Pathkeylen)).2)
          else (1, pm1.writeEnd 1 ofs2 vmOut, (fs2.truncate (ofs2 / Pathkeylen)).2)
      else (1, pm1.writeEnd 1 ofs2 vmOut, fs2)

/-- `writeTransaction` (`pathmap.go` line 517). -/
def Pathmap.writeTransaction (pm : Pathmap) (fs : Fs) (incremental : Bool) (ofs0 : Nat)
    (sync : Bool) : Int × Pathmap × Fs :=
  match wtLoop (pm.writeBegin incremental).1 [] [] 49 ofs0 fs with
  | .fail e ofs1 fs1 =>
    (e, (pm.writeBegin incremental).2.writeEnd e ofs1 (pm.writeBegin incremental).1, fs1)
  | .ok acc cur chi ofs1 fs1 =>
    wtFinish (pm.writeBegin incremental).2 (pm.writeBegin incremental).1
      (!incremental && decide (ofs0 = 0)) sync ofs0
      (if 0 < cur.length then flushChunk fs1 acc cur chi (if incremental then 65 else 83) ofs1
       else .ok acc ofs1 fs1)



/-- `Write` (`pathmap.go` line 423): when the log is bloated
(`1024 < cnt` and `2*len(vm) < cnt`) rewrite it in two transactions (both
with `incremental = false`, the first appended at the current end, the
second at offset 0 with truncation); otherwise append one incremental
transaction. -/
def Pathmap.Write (pm : Pathmap) (fs : Fs) (sync : Bool) : Int × Pathmap × Fs :=
  if 1024 < pm.ofs / Pathkeylen ∧ 2 * pm.vm.length < pm.ofs / Pathkeylen then
    if (pm.writeTransaction fs false pm.ofs sync).1 < 0 then
      pm.writeTransaction fs false pm.ofs sync
    else
      (pm.writeTransaction fs false pm.ofs sync).2.1.writeTransaction
        (pm.writeTransaction fs false pm.ofs sync).2.2 false 0 sync
  else pm.writeTransaction fs true pm.ofs sync

/-! ## Bit arithmetic on cells -/

theorem and_mask_eq_mod (v : Nat) : v &&& MASK = v % 128 := by
  have h := Nat.and_pow_two_sub_one_eq_mod v 7
  norm_num at h
  rw [MASK]; exact_mod_cast h

theorem and_mask_lt (v : Nat) : v &&& MASK < 128 := by
  rw [and_mask_eq_mod]; omega

theorem and_mask_small (v : Nat) (h : v < 128) : v &&& MASK = v := by
  rw [and_mask_eq_mod]; omega

theorem and_dirt_small (v : Nat) (h : v < 128) : v &&& DIRT = 0 := by
  have h5 := Nat.and_two_pow v 7
  have h6 : v.testBit 7 = false := Nat.testBit_lt_two_pow (by norm_num; omega)
  norm_num [h6] at h5
  rw [DIRT]; exact_mod_cast h5

theorem and_dirt_cases (v : Nat) : v &&& DIRT = 0 ∨ v &&& DIRT = 128 := by
  have h5 := Nat.and_two_pow v 7
  rw [DIRT]
  cases h6 : v.testBit 7 <;> rw [h6] at h5 <;> norm_num at h5 <;> omega

theorem lor_zero_left (v : Nat) : 0 ||| v = v := Nat.zero_or v

theorem lor_dirt_and_dirt (v : Nat) : (DIRT ||| v) &&& DIRT = DIRT := by
  rw [DIRT]
  apply Nat.eq_of_testBit_eq
  intro i
  rw [Nat.testBit_land, Nat.testBit_lor]
  by_cases h : i = 7
  · subst h
    have h128 : Nat.testBit 128 7 = true := by decide
    rw [h128]; simp
  · have h1 : (128 : Nat) = 2 ^ 7 := by norm_num
    rw [h1, Nat.testBit_two_pow_of_ne (fun h2 => h (h2.symm))]
    simp

theorem lor_dirt_and_mask (v : Nat) : (DIRT ||| v) &&& MASK = v &&& MASK := by
  rw [DIRT, MASK]
  apply Nat.eq_of_testBit_eq
  intro i
  rw [Nat.testBit_land, Nat.testBit_lor, Nat.testBit_land]
  by_cases h : i < 7
  · have h1 : (128 : Nat) = 2 ^ 7 := by norm_num
    rw [h1, Nat.testBit_two_pow_of_ne (by omega)]
    simp
  · have h2 : (127 : Nat) < 2 ^ i := by
      calc (127 : Nat) < 2 ^ 7 := by norm_num
      _ ≤ 2 ^ i := Nat.pow_le_pow_right (by norm_num) (by omega)
    rw [Nat.testBit_lt_two_pow h2]
    simp

/-! ## Association-list lemmas -/

theorem vmFind_eq_none (vm : Vm) (k : Pathkey) :
    vmFind vm k = none ↔ k ∉ vm.map Prod.fst := by
  induction vm with
  | nil => simp [vmFind]
  | cons kv rest ih =>
    match kv with
    | (k1, v1) =>
      by_cases h : k1 = k
      · subst h; simp [vmFind]
      · simp [vmFind, h, ih, Ne.symm h]

theorem vmFind_insert_self (vm : Vm) (k : Pathkey) (v : Nat) :
    vmFind (vmInsert vm k v) k = some v := by
  induction vm with
  | nil => simp [vmInsert, vmFind]
  | cons kv rest ih =>
    match kv with
    | (k1, v1) =>
      by_cases h : k1 = k
      · simp [vmInsert, vmFind, h]
      · simp [vmInsert, vmFind, h, ih]

theorem vmFind_insert_ne (vm : Vm) (k k2 : Pathkey) (v : Nat) (h : k2 ≠ k) :
    vmFind (vmInsert vm k v) k2 = vmFind vm k2 := by
  have hne : ¬(k = k2) := fun he => h he.symm
  induction vm with
  | nil => simp [vmInsert, vmFind, hne]
  | cons kv rest ih =>
    match kv with
    | (k1, v1) =>
      by_cases h1 : k1 = k
      · subst h1
        simp [vmInsert, vmFind, hne]
      · simp only [vmInsert, if_neg h1, vmFind]
        by_cases h2 : k1 = k2
        · simp [h2]
        · simp [h2, ih]

theorem vmFind_erase_self (vm : Vm) (k : Pathkey)
    (hnd : (vm.map Prod.fst).Nodup) : vmFind (vmErase vm k) k = none := by
  induction vm with
  | nil => simp [vmErase, vmFind]
  | cons kv rest ih =>
    match kv with
    | (k1, v1) =>
      simp only [List.map_cons, List.nodup_cons] at hnd
      by_cases h : k1 = k
      · subst h
        simp only [vmErase, if_pos rfl]
        exact (vmFind_eq_none rest k1).mpr hnd.1
      · simp only [vmErase, if_neg h, vmFind, if_neg h]
        exact ih hnd.2

theorem vmFind_erase_ne (vm : Vm) (k k2 : Pathkey) (h : k2 ≠ k) :
    vmFind (vmErase vm k) k2 = vmFind vm k2 := by
  induction vm with
  | nil => simp [vmErase, vmFind]
  | cons kv rest ih =>
    match kv with
    | (k1, v1) =>
      by_cases h1 : k1 = k
      · subst h1
        have hne : ¬(k1 = k2) := fun he => h he.symm
        simp [vmErase, vmFind, hne]
      · simp only [vmErase, if_neg h1, vmFind]
        by_cases h2 : k1 = k2
        · simp [h2]
        · simp [h2, ih]

theorem vmInsert_not_mem (vm : Vm) (k : Pathkey) (v : Nat)
    (h : vmFind vm k = none) : vmInsert vm k v = vm ++ [(k, v)] := by
  induction vm with
  | nil => simp [vmInsert]
  | cons kv rest ih =>
    match kv with
    | (k1, v1) =>
      simp only [vmFind] at h
      by_cases h1 : k1 = k
      · rw [if_pos h1] at h; cases h
      · rw [if_neg h1] at h
        simp [vmInsert, h1, ih h]

theorem vmInsert_keys (vm : Vm) (k : Pathkey) (v : Nat) (h : vmFind vm k ≠ none) :
    (vmInsert vm k v).map Prod.fst = vm.map Prod.fst := by
  induction vm with
  | nil => simp [vmFind] at h
  | cons kv rest ih =>
    match kv with
    | (k1, v1) =>
      simp only [vmFind] at h
      by_cases h1 : k1 = k
      · simp [vmInsert, h1]
      · rw [if_neg h1] at h
        simp [vmInsert, h1, ih h]

theorem vmFind_append_left (a b : Vm) (k : Pathkey) (v : Nat)
    (h : vmFind a k = some v) : vmFind (a ++ b) k = some v := by
  induction a with
  | nil => simp [vmFind] at h
  | cons kv rest ih =>
    match kv with
    | (k1, v1) =>
      simp only [vmFind] at h ⊢
      by_cases h1 : k1 = k
      · simpa [h1] using h
      · rw [if_neg h1] at h
        simpa [h1] using ih h

theorem vmFind_append_right (a b : Vm) (k : Pathkey)
    (h : vmFind a k = none) : vmFind (a ++ b) k = vmFind b k := by
  induction a with
  | nil => simp [vmFind]
  | cons kv rest ih =>
    match kv with
    | (k1, v1) =>
      simp only [vmFind] at h
      by_cases h1 : k1 = k
      · rw [if_pos h1] at h; cases h
      · rw [if_neg h1] at h
        simpa [vmFind, h1] using ih h

theorem vmFind_map (vm : Vm) (f : Nat → Nat) (k : Pathkey) :
    vmFind (vm.map (fun kv => (kv.1, f kv.2))) k = (vmFind vm k).map f := by
  induction vm with
  | nil => simp [vmFind]
  | cons kv rest ih =>
    match kv with
    | (k1, v1) =>
      by_cases h : k1 = k <;> simp [vmFind, h, ih]

/-! ## Claim C5: the dirtiness rule of the common setter -/

/-- The kind collapse used by `set`: every value whose low 7 bits are
`≤ MAXIDX` — the index values and `NOTEXIST` alike — collapses to
`UNKNOWN`; `WHITEOUT` and `OPAQUE` stand alone. -/
def kindc (v : Nat) : Nat :=
  if v &&& MASK ≤ MAXIDX then UNKNOWN else v &&& MASK

theorem maxvis_lt (v : Nat) (hv : v ≤ MAXVIS) : v < 128 := by
  simp only [MAXVIS, OPAQUE, MASK] at hv
  omega

/-- C5, corrected: `Set(p, v); IsDirty(p)` is true iff the path was already
dirty or the collapsed kinds of the new value and of the stored cell
(`UNKNOWN` when absent) differ, where the collapse sends every value
`≤ MAXIDX` — all index values and also `NOTEXIST` — to `UNKNOWN`.  In
particular `Set(p, NOTEXIST)` on a clean cell holding an index value does
NOT dirty the path. -/
theorem C5_set_dirtiness (pm : Pathmap) (path : String) (v : Nat) (hv : v ≤ MAXVIS) :
    (pm.Set path v).IsDirty path =
      (pm.IsDirty path ||
        decide (kindc ((vmFind pm.vm (ComputePathkey path pm.caseins)).getD UNKNOWN) ≠ kindc v)) := by
  have hv128 : v < 128 := maxvis_lt v hv
  rw [Pathmap.Set, if_neg (not_lt.mpr hv)]
  simp only [Pathmap.set, Pathmap.IsDirty, Pathmap.TryGet]
  set k := ComputePathkey path pm.caseins with hk
  set u := (vmFind pm.vm k).getD UNKNOWN with hu
  simp only [vmFind_insert_self]
  rcases and_dirt_cases u with h0 | h0
  · rw [if_pos h0]
    have hrh : (match vmFind pm.vm k with
        | some v => decide (v &&& DIRT ≠ 0)
        | none => false) = false := by
      cases hf : vmFind pm.vm k with
      | none => rfl
      | some w =>
        have : u = w := by rw [hu, hf]; rfl
        simp only [this ▸ h0]
        simp
    rw [hrh]
    by_cases hkind : kindc u ≠ kindc v
    · have hcond : (if u &&& MASK ≤ MAXIDX then UNKNOWN else u &&& MASK) ≠
          (if v &&& MASK ≤ MAXIDX then UNKNOWN else v &&& MASK) := by
        simpa [kindc] using hkind
      rw [if_pos hcond]
      simp only [lor_dirt_and_dirt]
      simp [DIRT, kindc, hkind]
      simpa [kindc] using hkind
    · have hcond : ¬((if u &&& MASK ≤ MAXIDX then UNKNOWN else u &&& MASK) ≠
          (if v &&& MASK ≤ MAXIDX then UNKNOWN else v &&& MASK)) := by
        simpa [kindc] using hkind
      rw [if_neg hcond]
      rw [lor_zero_left]
      simp [and_dirt_small v hv128, kindc]
      simpa [kindc] using hkind
  · have hne : ¬(u &&& DIRT = 0) := by omega
    rw [if_neg hne]
    have hfind : ∃ w, vmFind pm.vm k = some w ∧ w = u := by
      cases hf : vmFind pm.vm k with
      | none =>
        exfalso
        have : u = UNKNOWN := by rw [hu, hf]; rfl
        rw [this] at h0
        have : UNKNOWN &&& DIRT = 0 := and_dirt_small _ (by simp [UNKNOWN, MASK])
        omega
      | some w =>
        exact ⟨w, rfl, by rw [hu, hf]; rfl⟩
    rcases hfind with ⟨w, hw, hwu⟩
    rw [hw, hwu]
    have h1 : (u &&& DIRT ||| v) &&& DIRT ≠ 0 := by
      rw [h0]
      have h2 := lor_dirt_and_dirt v
      rw [DIRT] at h2 ⊢
      omega
    have h2 : u &&& DIRT ≠ 0 := by omega
    simp [h1, h2]

/-- C5 witness: setting `WHITEOUT` on a fresh path dirties it. -/
theorem C5_set_dirtiness_witness :
    WHITEOUT ≤ MAXVIS ∧
      ((emptyPm false).Set "/a" WHITEOUT).IsDirty "/a" =
        ((emptyPm false).IsDirty "/a" ||
          decide (kindc ((vmFind (emptyPm false).vm
            (ComputePathkey "/a" (emptyPm false).caseins)).getD UNKNOWN) ≠ kindc WHITEOUT)) :=
  ⟨by decide, C5_set_dirtiness (emptyPm false) "/a" WHITEOUT (by decide)⟩

/-- C5 counterexample: `Set("/a", NOTEXIST)` on a clean cell holding the
index value 5 leaves the path clean, although the claim (which separates
the `NOTEXIST` kind from the index kinds) requires it to become dirty and
its key to enter the dirty list. -/
theorem C5_counterexample :
    NOTEXIST ≤ MAXVIS ∧
    vmFind ((emptyPm false).Set "/a" 5).vm (ComputePathkey "/a" false) = some 5 ∧
    ((emptyPm false).Set "/a" 5).IsDirty "/a" = false ∧
    (((emptyPm false).Set "/a" 5).Set "/a" NOTEXIST).IsDirty "/a" = false ∧
    (((emptyPm false).Set "/a" 5).Set "/a" NOTEXIST).dl = [] := by
  decide

/-! ## Claim C10: relative paths bypass Get -/

theorem getLoop_no_slash (vm : Vm) (ci first : Bool) (acc : Pathkey) (cs : List Char)
    (isopq : Bool) (v : Nat) (ok : Bool)
    (h : cs.takeWhile (fun c => c = '/') = []) :
    getLoop vm ci first acc cs isopq v ok = (isopq, v, ok) := by
  rw [getLoop.eq_def]
  simp [h]

/-- C10, confirmed: a path that does not begin with `'/'` never reaches a
map lookup in `Get`, which returns `(false, UNKNOWN)`; the exact key can
still be present, as `TryGet` shows after `Set("a", WHITEOUT)`. -/
theorem C10_relative_path_bypass (pm : Pathmap) (path : String)
    (h : path.data.head? ≠ some ('/')) :
    pm.Get path = (false, UNKNOWN) ∧
    ((emptyPm false).Set "a" WHITEOUT).Get "a" = (false, UNKNOWN) ∧
    ((emptyPm false).Set "a" WHITEOUT).TryGet "a" = (WHITEOUT, true) := by
  have hconc : ((emptyPm false).Set "a" WHITEOUT).Get "a" = (false, UNKNOWN) := by
    rw [Pathmap.Get, getLoop_no_slash _ _ _ _ _ _ _ _ (by decide)]
    decide
  refine ⟨?_, hconc, by decide⟩
  have htw : path.data.takeWhile (fun c => c = '/') = [] := by
    cases hd : path.data with
    | nil => simp
    | cons c cs =>
      have hc : ¬(c = '/') := by rw [hd] at h; simpa using h
      simp [List.takeWhile_cons, hc]
  rw [Pathmap.Get]
  rw [getLoop_no_slash _ _ _ _ _ _ _ _ htw]
  simp

/-- C10 witness at the relative path `"a"`. -/
theorem C10_witness :
    (("a" : String).data.head? ≠ some ('/')) ∧
      (((emptyPm false).Set "a" WHITEOUT).Get "a" = (false, UNKNOWN) ∧
        ((emptyPm false).Set "a" WHITEOUT).Get "a" = (false, UNKNOWN) ∧
        ((emptyPm false).Set "a" WHITEOUT).TryGet "a" = (WHITEOUT, true)) :=
  ⟨by decide, C10_relative_path_bypass ((emptyPm false).Set "a" WHITEOUT) "a" (by decide)⟩

/-! ## Claim C2: replay is total -/

theorem readLoop_step (rs : List DiskRec) (vm : Vm) (ofs : Nat) (n : Int)
    (rs1 : List DiskRec) (vm1 : Vm) (ofs1 : Nat)
    (h : readTransaction rs vm ofs = (n, rs1, vm1, ofs1)) :
    readLoop rs vm ofs =
      if n < 0 then (n, vm1, ofs1)
      else if n = 0 then (1, vm1, ofs1)
      else readLoop rs1 vm1 ofs1 := by
  rw [readLoop.eq_def]
  split
  next n2 rs2 vm2 ofs2 heq =>
    rw [h] at heq
    cases heq
    rfl

theorem readLoop_one (rs : List DiskRec) (vm : Vm) (ofs : Nat) :
    (readLoop rs vm ofs).1 = 1 := by
  induction rs, vm, ofs using readLoop.induct with
  | case1 rs vm ofs n rs1 vm1 ofs1 h hlt =>
    exfalso
    rcases readTransaction_spec rs vm ofs with h0 | ⟨h1, _⟩
    · rw [h] at h0
      simp at h0
      omega
    · rw [h] at h1
      simp at h1
      omega
  | case2 rs vm ofs rs1 vm1 ofs1 h hge =>
    rw [readLoop_step rs vm ofs 0 rs1 vm1 ofs1 h]
    norm_num
  | case3 rs vm ofs n rs1 vm1 ofs1 h hlt hne ih =>
    rw [readLoop_step rs vm ofs n rs1 vm1 ofs1 h, if_neg hlt, if_neg hne]
    exact ih

/-- C2, confirmed: replay is total.  With all storage reads succeeding
(the model's pure reader), `read` returns 1 on every file content — any
torn or invalid transaction is handled without an error; the torn trailing
bytes of the file are ignored entirely; and a transaction failing
validation (here: a declared count of 1 with a wrong stored hash) is
discarded without applying its records, parsing terminating cleanly. -/
theorem C2_replay_total :
    (∀ (fs : Fs) (pm : Pathmap), (pm.read fs).1 = 1) ∧
    (∀ (recs : List DiskRec) (torn torn2 : Nat) (caseins : Bool),
      OpenPathmap { recs := recs, torn := torn, werr := none, ferr := none, terr := none } caseins =
        OpenPathmap { recs := recs, torn := torn2, werr := none, ferr := none, terr := none } caseins) ∧
    (∀ (vm : Vm),
      readTransaction [DiskRec.header 49 65 1 [], DiskRec.data 125 ['a']] vm 0 =
        (1, [], vm, 32)) := by
  refine ⟨fun fs pm => ?_, fun recs torn torn2 caseins => rfl, fun vm => ?_⟩
  · rw [Pathmap.read]
    exact readLoop_one fs.recs pm.vm pm.ofs
  · have hs : headerScan false [DiskRec.header 49 65 1 [], DiskRec.data 125 ['a']] 0 =
        ScanR.found 65 1 [] [DiskRec.data 125 ['a']] 16 := by decide
    have hr : readRecords 1 [DiskRec.data 125 ['a']] [] [] 16 =
        RecsR.done [(['a'], 125)] [(125, ['a'])] [] 32 0 := by decide
    rw [readTransaction, chunkLoop_commit hs hr (Or.inr rfl)]
    simp

/-! ## Claim C3: dirty-set restoration on failed Write -/

theorem writeEndStep_other (pm : Pathmap) (kv : Pathkey × Nat) (k : Pathkey)
    (h : k ≠ kv.1) :
    vmFind (writeEndStep pm kv).vm k = vmFind pm.vm k ∧
    ((writeEndStep pm kv).dl = pm.dl ∨ (writeEndStep pm kv).dl = pm.dl ++ [kv.1]) := by
  rw [writeEndStep]
  split
  · exact ⟨rfl, Or.inl rfl⟩
  · split
    · exact ⟨rfl, Or.inl rfl⟩
    · exact ⟨vmFind_insert_ne _ _ _ _ h, Or.inr rfl⟩

theorem wEFold_not_mem (l : Vm) (pm : Pathmap) (k : Pathkey)
    (h : k ∉ l.map Prod.fst) :
    vmFind (l.foldl writeEndStep pm).vm k = vmFind pm.vm k ∧
    (k ∈ (l.foldl writeEndStep pm).dl ↔ k ∈ pm.dl) := by
  induction l generalizing pm with
  | nil => exact ⟨rfl, Iff.rfl⟩
  | cons kv rest ih =>
    simp only [List.map_cons, List.mem_cons, not_or] at h
    obtain ⟨h1, h2⟩ := h
    rw [List.foldl_cons]
    obtain ⟨hv, hd⟩ := writeEndStep_other pm kv k h1
    obtain ⟨ihv, ihd⟩ := ih (writeEndStep pm kv) h2
    refine ⟨ihv.trans hv, ihd.trans ?_⟩
    rcases hd with hd | hd
    · rw [hd]
    · rw [hd]
      simp [h1]

theorem wEFold_dirty : ∀ (l : Vm) (k : Pathkey) (v c : Nat) (pm : Pathmap),
    (l.map Prod.fst).Nodup → (k, v) ∈ l → v &&& DIRT ≠ 0 →
    vmFind pm.vm k = some c → c &&& DIRT = 0 →
    vmFind (l.foldl writeEndStep pm).vm k = some (DIRT ||| c) ∧
      k ∈ (l.foldl writeEndStep pm).dl := by
  intro l
  induction l with
  | nil => intro k v c pm hnd hk; cases hk
  | cons kv rest ih =>
    intro k v c pm hnd hk hd hm hc
    simp only [List.map_cons, List.nodup_cons] at hnd
    rw [List.foldl_cons]
    rcases List.mem_cons.mp hk with heq | hmem
    · subst heq
      have hkk : k ∉ rest.map Prod.fst := hnd.1
      have hstep : writeEndStep pm (k, v) =
          { pm with vm := vmInsert pm.vm k (DIRT ||| c), dl := pm.dl ++ [k] } := by
        rw [writeEndStep]
        rw [if_neg hd]
        simp only [hm, Option.getD_some]
        rw [if_neg (by simpa using hc)]
      rw [hstep]
      obtain ⟨hv2, hd2⟩ := wEFold_not_mem rest _ k hkk
      refine ⟨hv2.trans (vmFind_insert_self _ _ _), hd2.mpr (by simp)⟩
    · have hkk : k ≠ kv.1 := by
        intro he
        exact hnd.1 (he ▸ (List.mem_map.mpr ⟨(k, v), hmem, by rw [he]⟩))
      obtain ⟨hv2, _⟩ := writeEndStep_other pm kv k hkk
      exact ih k v c (writeEndStep pm kv) hnd.2 hmem hd (hv2.trans hm) hc

theorem wEFold_clean : ∀ (l : Vm) (k : Pathkey) (v : Nat) (pm : Pathmap),
    (l.map Prod.fst).Nodup → (k, v) ∈ l → v &&& DIRT = 0 →
    vmFind (l.foldl writeEndStep pm).vm k = vmFind pm.vm k ∧
    (k ∈ (l.foldl writeEndStep pm).dl ↔ k ∈ pm.dl) := by
  intro l
  induction l with
  | nil => intro k v pm hnd hk; cases hk
  | cons kv rest ih =>
    intro k v pm hnd hk hd
    simp only [List.map_cons, List.nodup_cons] at hnd
    rw [List.foldl_cons]
    rcases List.mem_cons.mp hk with heq | hmem
    · subst heq
      have hkk : k ∉ rest.map Prod.fst := hnd.1
      have hstep : writeEndStep pm (k, v) = pm := by
        rw [writeEndStep, if_pos hd]
      rw [hstep]
      exact wEFold_not_mem rest pm k hkk
    · have hkk : k ≠ kv.1 := by
        intro he
        exact hnd.1 (he ▸ (List.mem_map.mpr ⟨(k, v), hmem, by rw [he]⟩))
      obtain ⟨hv2, hd2⟩ := writeEndStep_other pm kv k hkk
      obtain ⟨ihv, ihd⟩ := ih k v (writeEndStep pm kv) hnd.2 hmem hd
      refine ⟨ihv.trans hv2, ihd.trans ?_⟩
      rcases hd2 with h2 | h2
      · rw [h2]
      · rw [h2]
        simp [hkk]

/-- C3, corrected: when a write fails (`n < 0`), `writeEnd` restores the
dirty bit only for the keys of `vm_out` whose `vm_out` cell itself carries
the `DIRT` bit — the dirty `WHITEOUT`/`OPAQUE` cells captured by
`writeBegin`.  A key of `vm_out` whose cell has `DIRT` clear — in
particular every key emitted as a `NOTEXIST` deletion record, which is how
dirty index/`NOTEXIST`-kind keys are written — is skipped: its in-memory
cell and its dirty-list membership are unchanged, so the next `Write` does
not redo that work. -/
theorem C3_writeEnd_redirty (pm : Pathmap) (n : Int) (ofs : Nat) (vmOut : Vm)
    (hn : n < 0) (hnd : (vmOut.map Prod.fst).Nodup) (k : Pathkey) (v : Nat)
    (hk : (k, v) ∈ vmOut) :
    (∀ c, v &&& DIRT ≠ 0 → vmFind pm.vm k = some c → c &&& DIRT = 0 →
      vmFind (pm.writeEnd n ofs vmOut).vm k = some (DIRT ||| c) ∧
        k ∈ (pm.writeEnd n ofs vmOut).dl) ∧
    (v &&& DIRT = 0 →
      vmFind (pm.writeEnd n ofs vmOut).vm k = vmFind pm.vm k ∧
        (k ∈ (pm.writeEnd n ofs vmOut).dl ↔ k ∈ pm.dl)) := by
  have hwe : pm.writeEnd n ofs vmOut = vmOut.foldl writeEndStep pm := by
    rw [Pathmap.writeEnd, if_neg (by omega : ¬(0 : Int) < n), if_pos hn]
  rw [hwe]
  exact ⟨fun c hd hm hc => wEFold_dirty vmOut k v c pm hnd hk hd hm hc,
    fun hd => wEFold_clean vmOut k v pm hnd hk hd⟩

/-- C3 witness: a dirty `WHITEOUT` cell that `writeBegin` cleared is
re-dirtied by a failed `writeEnd`. -/
theorem C3_witness :
    ((-5 : Int) < 0 ∧
      (([(['/', 'b'], DIRT ||| WHITEOUT)] : Vm).map Prod.fst).Nodup ∧
      ((['/', 'b'], DIRT ||| WHITEOUT) ∈ ([(['/', 'b'], DIRT ||| WHITEOUT)] : Vm))) ∧
    (vmFind (Pathmap.writeEnd
        { caseins := false, vm := [(['/', 'b'], WHITEOUT)], dl := [], ofs := 0 }
        (-5) 0 [(['/', 'b'], DIRT ||| WHITEOUT)]).vm ['/', 'b'] =
          some (DIRT ||| WHITEOUT) ∧
      ['/', 'b'] ∈ (Pathmap.writeEnd
        { caseins := false, vm := [(['/', 'b'], WHITEOUT)], dl := [], ofs := 0 }
        (-5) 0 [(['/', 'b'], DIRT ||| WHITEOUT)]).dl) :=
  ⟨⟨by decide, by decide, by decide⟩,
    (C3_writeEnd_redirty
      { caseins := false, vm := [(['/', 'b'], WHITEOUT)], dl := [], ofs := 0 }
      (-5) 0 [(['/', 'b'], DIRT ||| WHITEOUT)] (by decide) (by decide)
      ['/', 'b'] (DIRT ||| WHITEOUT) (by decide)).1
      WHITEOUT (by decide) (by decide) (by decide)⟩

/-- C3 counterexample: `"/a"` is dirty with an index kind before a failed
`Write` (storage write returns `-5`), yet afterwards it is clean and the
dirty list is empty — the claim requires it to be dirty again with its key
back on the dirty list. -/
theorem C3_counterexample :
    (((emptyPm false).Set "/a" WHITEOUT).Set "/a" 5).IsDirty "/a" = true ∧
    ((((emptyPm false).Set "/a" WHITEOUT).Set "/a" 5).Write
        { recs := [], torn := 0, werr := some (-5), ferr := none, terr := none } false).1 = -5 ∧
    ((((emptyPm false).Set "/a" WHITEOUT).Set "/a" 5).Write
        { recs := [], torn := 0, werr := some (-5), ferr := none, terr := none } false).2.1.IsDirty
      "/a" = false ∧
    ((((emptyPm false).Set "/a" WHITEOUT).Set "/a" 5).Write
        { recs := [], torn := 0, werr := some (-5), ferr := none, terr := none } false).2.1.dl
      = [] := by
  decide

/-! ## Claim C9: the no-UNKNOWN invariant -/

/-- No cell of the map has kind `UNKNOWN`. -/
def NoUnk (vm : Vm) : Prop := ∀ kv ∈ vm, kv.2 &&& MASK ≠ UNKNOWN

theorem mem_vmInsert (vm : Vm) (k : Pathkey) (v : Nat) (kv : Pathkey × Nat)
    (h : kv ∈ vmInsert vm k v) : kv = (k, v) ∨ kv ∈ vm := by
  induction vm with
  | nil => simpa [vmInsert] using h
  | cons kv1 rest ih =>
    match kv1 with
    | (k1, v1) =>
      rw [vmInsert] at h
      by_cases h1 : k1 = k
      · rw [if_pos h1] at h
        rcases List.mem_cons.mp h with h2 | h2
        · exact Or.inl (by rw [h2, h1])
        · exact Or.inr (List.mem_cons_of_mem _ h2)
      · rw [if_neg h1] at h
        rcases List.mem_cons.mp h with h2 | h2
        · exact Or.inr (h2 ▸ List.mem_cons_self _ _)
        · rcases ih h2 with h3 | h3
          · exact Or.inl h3
          · exact Or.inr (List.mem_cons_of_mem _ h3)

theorem mem_vmErase (vm : Vm) (k : Pathkey) (kv : Pathkey × Nat)
    (h : kv ∈ vmErase vm k) : kv ∈ vm := by
  induction vm with
  | nil => simpa [vmErase] using h
  | cons kv1 rest ih =>
    match kv1 with
    | (k1, v1) =>
      rw [vmErase] at h
      by_cases h1 : k1 = k
      · rw [if_pos h1] at h
        exact List.mem_cons_of_mem _ h
      · rw [if_neg h1] at h
        rcases List.mem_cons.mp h with h2 | h2
        · exact h2 ▸ List.mem_cons_self _ _
        · exact List.mem_cons_of_mem _ (ih h2)

theorem vmFind_some_mem (vm : Vm) (k : Pathkey) (c : Nat)
    (h : vmFind vm k = some c) : (k, c) ∈ vm := by
  induction vm with
  | nil => cases h
  | cons kv rest ih =>
    match kv with
    | (k1, v1) =>
      rw [vmFind] at h
      by_cases h1 : k1 = k
      · rw [if_pos h1] at h
        cases h
        exact h1 ▸ List.mem_cons_self _ _
      · rw [if_neg h1] at h
        exact List.mem_cons_of_mem _ (ih h)

theorem and_mask_idem (x : Nat) : (x &&& MASK) &&& MASK = x &&& MASK := by
  rw [and_mask_eq_mod, and_mask_eq_mod]
  omega

theorem noUnk_insert {vm : Vm} {k : Pathkey} {v : Nat}
    (h : NoUnk vm) (hv : v &&& MASK ≠ UNKNOWN) : NoUnk (vmInsert vm k v) := by
  intro kv hkv
  rcases mem_vmInsert vm k v kv hkv with h1 | h1
  · rw [h1]; exact hv
  · exact h kv h1

theorem noUnk_erase {vm : Vm} {k : Pathkey} (h : NoUnk vm) : NoUnk (vmErase vm k) :=
  fun kv hkv => h kv (mem_vmErase vm k kv hkv)

theorem noUnk_nil : NoUnk [] := fun kv hkv => absurd hkv (List.not_mem_nil kv)

theorem noUnk_applyTmp : ∀ (tmp vm : Vm), NoUnk vm → NoUnk (applyTmp vm tmp) := by
  intro tmp
  induction tmp with
  | nil => intro vm h; exact h
  | cons kv rest ih =>
    intro vm h
    rw [applyTmp, List.foldl_cons]
    have hstep : NoUnk (if kv.2 = WHITEOUT ∨ kv.2 = OPAQUE then vmInsert vm kv.1 kv.2
        else if kv.2 = NOTEXIST then vmErase vm kv.1 else vm) := by
      split
      · next hg =>
        apply noUnk_insert h
        rcases hg with hg | hg <;> rw [hg] <;> decide
      · split
        · exact noUnk_erase h
        · exact h
    exact ih _ hstep

theorem noUnk_chunkLoop (rs : List DiskRec) (vm : Vm) (ofs : Nat) (tmp : Vm)
    (acc : Digest) (ch1 equ : Bool) (h : NoUnk vm) :
    NoUnk (chunkLoop rs vm ofs tmp acc ch1 equ).2.2.1 := by
  induction rs, vm, ofs, tmp, acc, ch1, equ using chunkLoop.induct with
  | case1 rs vm ofs tmp acc ch1 equ ofs1 hs => rw [chunkLoop_eof hs]; exact h
  | case2 rs vm ofs tmp acc ch1 equ rs1 ofs1 hs => rw [chunkLoop_abort1 hs]; exact h
  | case3 rs vm ofs tmp acc ch1 equ rs1 ofs1 hs => rw [chunkLoop_abortTrash hs]; exact h
  | case4 rs vm ofs tmp acc ch1 equ cmd cnt hash rs1 ofs1 hs ofs2 hr =>
    rw [chunkLoop_recsEof hs hr]; exact h
  | case5 rs vm ofs tmp acc ch1 equ cmd cnt hash rs1 ofs1 hs tmp1 acc1 rs2 ofs2 leftover hr hcmd =>
    rw [chunkLoop_commit hs hr hcmd]
    simp only
    split
    · split
      · exact noUnk_applyTmp _ _ noUnk_nil
      · exact noUnk_applyTmp _ _ h
    · exact h
  | case6 rs vm ofs tmp acc ch1 equ cmd cnt hash rs1 ofs1 hs tmp1 acc1 rs2 ofs2 leftover hr equ1 hcmd ih =>
    rw [chunkLoop_next hs hr hcmd]
    exact ih h

theorem noUnk_readLoop (rs : List DiskRec) (vm : Vm) (ofs : Nat) (h : NoUnk vm) :
    NoUnk (readLoop rs vm ofs).2.1 := by
  induction rs, vm, ofs using readLoop.induct with
  | case1 rs vm ofs n rs1 vm1 ofs1 heq hlt =>
    rw [readLoop_step _ _ _ _ _ _ _ heq, if_pos hlt]
    have := noUnk_chunkLoop rs vm ofs [] [] false true h
    rw [readTransaction] at heq
    rw [heq] at this
    exact this
  | case2 rs vm ofs rs1 vm1 ofs1 heq hge =>
    rw [readLoop_step _ _ _ _ _ _ _ heq]
    norm_num
    have := noUnk_chunkLoop rs vm ofs [] [] false true h
    rw [readTransaction] at heq
    rw [heq] at this
    exact this
  | case3 rs vm ofs n rs1 vm1 ofs1 heq hlt hne ih =>
    rw [readLoop_step _ _ _ _ _ _ _ heq, if_neg hlt, if_neg hne]
    apply ih
    have := noUnk_chunkLoop rs vm ofs [] [] false true h
    rw [readTransaction] at heq
    rw [heq] at this
    exact this

theorem noUnk_set (pm : Pathmap) (k : Pathkey) (u v : Nat) (hv : v ≤ MAXVIS)
    (h : NoUnk pm.vm) : NoUnk (pm.set k u v).vm := by
  have hv128 : v < 128 := maxvis_lt v hv
  rw [Pathmap.set]
  show NoUnk (vmInsert pm.vm k ((if u &&& DIRT = 0 then
      (if (if u &&& MASK ≤ MAXIDX then UNKNOWN else u &&& MASK) ≠
          (if v &&& MASK ≤ MAXIDX then UNKNOWN else v &&& MASK) then DIRT else 0)
    else u &&& DIRT) ||| v))
  apply noUnk_insert h
  have hd : ∀ d, d = 0 ∨ d = DIRT → (d ||| v) &&& MASK ≠ UNKNOWN := by
    intro d hcase
    rcases hcase with hc | hc <;> rw [hc]
    · rw [lor_zero_left, and_mask_small v hv128]
      simp only [MAXVIS, OPAQUE, MASK] at hv
      simp only [UNKNOWN, MASK]
      omega
    · rw [lor_dirt_and_mask, and_mask_small v hv128]
      simp only [MAXVIS, OPAQUE, MASK] at hv
      simp only [UNKNOWN, MASK]
      omega
  apply hd
  split
  · by_cases hc : ((if u &&& MASK ≤ MAXIDX then UNKNOWN else u &&& MASK) ≠
        (if v &&& MASK ≤ MAXIDX then UNKNOWN else v &&& MASK))
    · right; rw [if_pos hc]
    · left; rw [if_neg hc]
  · rcases and_dirt_cases u with h0 | h0
    · next hne => exact absurd h0 hne
    · right; rw [h0]; rfl

theorem noUnk_Set (pm : Pathmap) (p : String) (v : Nat) (h : NoUnk pm.vm) :
    NoUnk (pm.Set p v).vm := by
  rw [Pathmap.Set]
  split
  · exact h
  · next hle => exact noUnk_set pm _ _ v (not_lt.mp hle) h

theorem noUnk_SetIf (pm : Pathmap) (p : String) (v : Nat) (h : NoUnk pm.vm) :
    NoUnk (pm.SetIf p v).vm := by
  rw [Pathmap.SetIf]
  split
  · exact h
  · next hle =>
    cases hf : vmFind pm.vm (ComputePathkey p pm.caseins) with
    | none =>
      simp only [hf]
      exact h
    | some u =>
      simp only [hf]
      exact noUnk_set pm _ _ v (not_lt.mp hle) h

theorem noUnk_Purge (pm : Pathmap) (h : NoUnk pm.vm) : NoUnk pm.Purge.vm := by
  rw [Pathmap.Purge]
  intro kv hkv
  exact h kv (List.mem_of_mem_filter hkv)

theorem noUnk_writeBegin (pm : Pathmap) (incr : Bool) (h : NoUnk pm.vm) :
    NoUnk (pm.writeBegin incr).2.vm := by
  rw [Pathmap.writeBegin]
  split
  · simp only
    have : ∀ (ks : List Pathkey) (st : Vm × Vm), NoUnk st.2 →
        NoUnk (ks.foldl (fun (st : Vm × Vm) (k : Pathkey) =>
          ((if ((vmFind st.2 k).getD 0) &&& MASK = WHITEOUT ∨
              ((vmFind st.2 k).getD 0) &&& MASK = OPAQUE then
            vmInsert st.1 k ((vmFind st.2 k).getD 0)
          else vmInsert st.1 k NOTEXIST),
            vmInsert st.2 k (((vmFind st.2 k).getD 0) &&& MASK))) st).2 := by
      intro ks
      induction ks with
      | nil => intro st hst; exact hst
      | cons k rest ih =>
        intro st hst
        rw [List.foldl_cons]
        apply ih
        simp only
        apply noUnk_insert hst
        cases hf : vmFind st.2 k with
        | none => decide
        | some c =>
          simp only [Option.getD_some]
          rw [and_mask_idem]
          exact hst (k, c) (vmFind_some_mem _ _ _ hf)
    exact this pm.dl ([], pm.vm) h
  · simp only
    intro kv hkv
    rcases List.mem_map.mp hkv with ⟨kv0, hkv0, heq⟩
    rw [← heq]
    simp only
    rw [and_mask_idem]
    exact h kv0 hkv0

theorem noUnk_writeEndStep (pm : Pathmap) (kv : Pathkey × Nat) (h : NoUnk pm.vm) :
    NoUnk (writeEndStep pm kv).vm := by
  rw [writeEndStep]
  split
  · exact h
  · split
    · exact h
    · simp only
      apply noUnk_insert h
      rw [lor_dirt_and_mask]
      cases hf : vmFind pm.vm kv.1 with
      | none => decide
      | some c =>
        simp only [Option.getD_some]
        exact h (kv.1, c) (vmFind_some_mem _ _ _ hf)

theorem noUnk_writeEnd (pm : Pathmap) (n : Int) (ofs : Nat) (vmOut : Vm)
    (h : NoUnk pm.vm) : NoUnk (pm.writeEnd n ofs vmOut).vm := by
  rw [Pathmap.writeEnd]
  split
  · exact h
  · split
    · have : ∀ (l : Vm) (pm1 : Pathmap), NoUnk pm1.vm →
          NoUnk (l.foldl writeEndStep pm1).vm := by
        intro l
        induction l with
        | nil => intro pm1 h1; exact h1
        | cons kv rest ih =>
          intro pm1 h1
          rw [List.foldl_cons]
          exact ih _ (noUnk_writeEndStep pm1 kv h1)
      exact this vmOut pm h
    · exact h

theorem noUnk_wtFinish (pm1 : Pathmap) (vmOut : Vm) (truncate sync : Bool)
    (ofs0 : Nat) (fin : WtR) (h : NoUnk pm1.vm) :
    NoUnk (wtFinish pm1 vmOut truncate sync ofs0 fin).2.1.vm := by
  rw [wtFinish.eq_def]
  repeat' split
  all_goals exact noUnk_writeEnd _ _ _ _ h

theorem noUnk_writeTransaction (pm : Pathmap) (fs : Fs) (incr : Bool) (ofs0 : Nat)
    (sync : Bool) (h : NoUnk pm.vm) :
    NoUnk (pm.writeTransaction fs incr ofs0 sync).2.1.vm := by
  have hb : NoUnk (pm.writeBegin incr).2.vm := noUnk_writeBegin pm incr h
  rw [Pathmap.writeTransaction]
  split
  · exact noUnk_writeEnd _ _ _ _ hb
  · exact noUnk_wtFinish _ _ _ _ _ _ hb

theorem noUnk_Write (pm : Pathmap) (fs : Fs) (sync : Bool) (h : NoUnk pm.vm) :
    NoUnk (pm.Write fs sync).2.1.vm := by
  rw [Pathmap.Write]
  split
  · split
    · exact noUnk_writeTransaction _ _ _ _ _ h
    · exact noUnk_writeTransaction _ _ _ _ _ (noUnk_writeTransaction _ _ _ _ _ h)
  · exact noUnk_writeTransaction _ _ _ _ _ h

/-- The operations a client can run against an open path map. -/
inductive Op where
  | set (p : String) (v : Nat)
  | setIf (p : String) (v : Nat)
  | write (sync : Bool)
  | purge
deriving Repr, DecidableEq

/-- Apply one operation to the map and its backing store. -/
def applyOp (st : Pathmap × Fs) (op : Op) : Pathmap × Fs :=
  match op with
  | .set p v => (st.1.Set p v, st.2)
  | .setIf p v => (st.1.SetIf p v, st.2)
  | .write sync =>
    let r := st.1.Write st.2 sync
    (r.2.1, r.2.2)
  | .purge => (st.1.Purge, st.2)

/-- Apply a sequence of operations. -/
def applyOps (st : Pathmap × Fs) (ops : List Op) : Pathmap × Fs :=
  ops.foldl applyOp st

theorem noUnk_applyOps (ops : List Op) : ∀ (st : Pathmap × Fs), NoUnk st.1.vm →
    NoUnk (applyOps st ops).1.vm := by
  induction ops with
  | nil => intro st h; exact h
  | cons op rest ih =>
    intro st h
    rw [applyOps, List.foldl_cons]
    apply ih
    match op with
    | .set p v => exact noUnk_Set st.1 p v h
    | .setIf p v => exact noUnk_SetIf st.1 p v h
    | .write sync => exact noUnk_Write st.1 st.2 sync h
    | .purge => exact noUnk_Purge st.1 h

/-- C9, confirmed: in every state reachable by opening a path map over an
arbitrary backing file and running any sequence of `Set`, `SetIf`, `Write`
and `Purge` (against storage with any error configuration), every key
present in the in-memory map has a cell whose low 7 bits are not
`UNKNOWN`. -/
theorem C9_no_unknown (fs0 : Fs) (caseins : Bool) (ops : List Op)
    (k : Pathkey) (c : Nat)
    (hf : vmFind (applyOps ((OpenPathmap fs0 caseins).2, fs0) ops).1.vm k = some c) :
    c &&& MASK ≠ UNKNOWN := by
  have h0 : NoUnk (OpenPathmap fs0 caseins).2.vm := by
    rw [OpenPathmap]
    split
    · exact fun kv hkv => absurd hkv (List.not_mem_nil kv)
    · show NoUnk ((emptyPm caseins).read fs0).2.vm
      simp only [Pathmap.read]
      exact noUnk_readLoop fs0.recs [] 0 noUnk_nil
  have h1 := noUnk_applyOps ops ((OpenPathmap fs0 caseins).2, fs0) h0
  exact h1 (k, c) (vmFind_some_mem _ _ _ hf)

theorem readTransaction_nil (vm : Vm) (ofs : Nat) :
    readTransaction [] vm ofs = (0, [], vm, ofs) := by
  rw [readTransaction]
  exact chunkLoop_eof rfl

theorem readLoop_nil (vm : Vm) (ofs : Nat) : readLoop [] vm ofs = (1, vm, ofs) := by
  rw [readLoop_step [] vm ofs 0 [] vm ofs (readTransaction_nil vm ofs)]
  norm_num

theorem OpenPathmap_emptyFs (caseins : Bool) :
    OpenPathmap emptyFs caseins = (0, emptyPm caseins) := by
  rw [OpenPathmap]
  simp only [Pathmap.read, emptyFs, emptyPm]
  rw [readLoop_nil]
  norm_num

/-- C9 witness: after opening on an empty file and setting a whiteout, the
cell of `"/a"` has kind `WHITEOUT`, not `UNKNOWN`. -/
theorem C9_witness :
    vmFind (applyOps ((OpenPathmap emptyFs false).2, emptyFs)
        [Op.set "/a" WHITEOUT]).1.vm ['/', 'a'] = some (DIRT ||| WHITEOUT) ∧
      (DIRT ||| WHITEOUT) &&& MASK ≠ UNKNOWN := by
  have hf : vmFind (applyOps ((OpenPathmap emptyFs false).2, emptyFs)
      [Op.set "/a" WHITEOUT]).1.vm ['/', 'a'] = some (DIRT ||| WHITEOUT) := by
    rw [OpenPathmap_emptyFs]
    decide
  exact ⟨hf, C9_no_unknown emptyFs false [Op.set "/a" WHITEOUT] ['/', 'a'] _ hf⟩

/-! ## Claim C6: ancestor-opaque propagation -/

/-- The slash-separated ancestor prefixes of a path, including the root
prefix (the leading run of slashes) and the path itself: the prefixes that
end at a segment boundary.  `fuel` only bounds the recursion; membership
for any fuel suffices for the claim, and `ancestors` supplies enough fuel
for the whole path. -/
def ancAux : Nat → Pathkey → List Char → Bool → List Pathkey
  | 0, _, _, _ => []
  | fuel + 1, acc, cs, first =>
    let sl := cs.takeWhile (fun c => c = '/')
    if sl = [] then []
    else
      let acc1 := acc ++ sl
      let cs1 := cs.dropWhile (fun c => c = '/')
      let seg := cs1.takeWhile (fun c => ¬ c = '/')
      if seg = [] then (if first then [acc1] else [])
      else
        (if first then [acc1] else []) ++ (acc1 ++ seg) ::
          ancAux fuel (acc1 ++ seg) (cs1.dropWhile (fun c => ¬ c = '/')) false

/-- All slash-separated ancestor prefixes of `p`, root prefix included. -/
def ancestors (p : String) : List Pathkey :=
  ancAux (p.data.length + 1) [] p.data true

theorem lookStep_mono (vm : Vm) (key : Pathkey) (st : Bool × Nat × Bool)
    (h : st.1 = true) : (lookStep vm key st).1 = true := by
  rw [lookStep]
  cases vmFind vm key <;> simp [h]

theorem lookStep_opaque (vm : Vm) (key : Pathkey) (st : Bool × Nat × Bool)
    (c : Nat) (hf : vmFind vm key = some c) (hc : c &&& MASK = OPAQUE) :
    (lookStep vm key st).1 = true := by
  rw [lookStep, hf]
  simp [hc]

theorem getLoop_stop (vm : Vm) (ci first : Bool) (acc : Pathkey) (cs : List Char)
    (isopq : Bool) (v : Nat) (ok : Bool)
    (hsl : cs.takeWhile (fun c => c = '/') ≠ [])
    (hseg : ((cs.dropWhile (fun c => c = '/')).takeWhile (fun c => ¬ c = '/')) = []) :
    getLoop vm ci first acc cs isopq v ok =
      if first then lookStep vm (acc ++ foldc ci (cs.takeWhile (fun c => c = '/')))
        (isopq, v, ok)
      else (isopq, v, ok) := by
  conv_lhs => rw [getLoop.eq_def]
  rw [dif_neg hsl]
  rw [if_pos hseg]

theorem getLoop_go (vm : Vm) (ci first : Bool) (acc : Pathkey) (cs : List Char)
    (isopq : Bool) (v : Nat) (ok : Bool)
    (hsl : cs.takeWhile (fun c => c = '/') ≠ [])
    (hseg : ((cs.dropWhile (fun c => c = '/')).takeWhile (fun c => ¬ c = '/')) ≠ []) :
    getLoop vm ci first acc cs isopq v ok =
      getLoop vm ci false
        (acc ++ foldc ci (cs.takeWhile (fun c => c = '/')) ++
          foldc ci ((cs.dropWhile (fun c => c = '/')).takeWhile (fun c => ¬ c = '/')))
        ((cs.dropWhile (fun c => c = '/')).dropWhile (fun c => ¬ c = '/'))
        (lookStep vm
          (acc ++ foldc ci (cs.takeWhile (fun c => c = '/')) ++
            foldc ci ((cs.dropWhile (fun c => c = '/')).takeWhile (fun c => ¬ c = '/')))
          (if first then lookStep vm (acc ++ foldc ci (cs.takeWhile (fun c => c = '/')))
            (isopq, v, ok) else (isopq, v, ok))).1
        (lookStep vm
          (acc ++ foldc ci (cs.takeWhile (fun c => c = '/')) ++
            foldc ci ((cs.dropWhile (fun c => c = '/')).takeWhile (fun c => ¬ c = '/')))
          (if first then lookStep vm (acc ++ foldc ci (cs.takeWhile (fun c => c = '/')))
            (isopq, v, ok) else (isopq, v, ok))).2.1
        (lookStep vm
          (acc ++ foldc ci (cs.takeWhile (fun c => c = '/')) ++
            foldc ci ((cs.dropWhile (fun c => c = '/')).takeWhile (fun c => ¬ c = '/')))
          (if first then lookStep vm (acc ++ foldc ci (cs.takeWhile (fun c => c = '/')))
            (isopq, v, ok) else (isopq, v, ok))).2.2 := by
  conv_lhs => rw [getLoop.eq_def]
  rw [dif_neg hsl]
  rw [if_neg hseg]

theorem getLoop_mono (vm : Vm) (ci : Bool) : ∀ (first : Bool) (acc : Pathkey)
    (cs : List Char) (isopq : Bool) (v : Nat) (ok : Bool), isopq = true →
    (getLoop vm ci first acc cs isopq v ok).1 = true := by
  intro first acc cs isopq v ok
  induction first, acc, cs, isopq, v, ok using getLoop.induct vm ci with
  | case1 first acc cs isopq v ok sl hsl =>
    intro h
    rw [getLoop_no_slash vm ci first acc cs isopq v ok hsl, h]
  | case2 first acc cs isopq v ok sl hsl cs1 seg hseg =>
    intro h
    rw [getLoop_stop vm ci first acc cs isopq v ok hsl hseg]
    split
    · exact lookStep_mono _ _ _ h
    · exact h
  | case3 first acc cs isopq v ok sl hsl acc1 cs1 st1 seg hseg acc2 cs2 st2 ih =>
    intro h
    rw [getLoop_go vm ci first acc cs isopq v ok hsl hseg]
    apply ih
    apply lookStep_mono
    show (if _h : first = true then lookStep vm acc1 (isopq, v, ok)
      else (isopq, v, ok)).1 = true
    split
    · exact lookStep_mono _ _ _ h
    · exact h

theorem getLoop_anc (vm : Vm) : ∀ (fuel : Nat) (first : Bool) (acc : Pathkey)
    (cs : List Char) (isopq : Bool) (v : Nat) (ok : Bool) (x : Pathkey) (c : Nat),
    x ∈ ancAux fuel acc cs first → vmFind vm x = some c → c &&& MASK = OPAQUE →
    (getLoop vm false first acc cs isopq v ok).1 = true := by
  intro fuel
  induction fuel with
  | zero => intro first acc cs isopq v ok x c hx; cases hx
  | succ n ih =>
    intro first acc cs isopq v ok x c hx hf hc
    rw [ancAux] at hx
    by_cases hsl : cs.takeWhile (fun c => c = '/') = []
    · rw [if_pos hsl] at hx; cases hx
    · rw [if_neg hsl] at hx
      by_cases hseg : ((cs.dropWhile (fun c => c = '/')).takeWhile (fun c => ¬ c = '/')) = []
      · rw [if_pos hseg] at hx
        rw [getLoop_stop vm false first acc cs isopq v ok hsl hseg]
        rcases first with _ | _
        · simp at hx
        · simp only [if_pos rfl] at hx ⊢
          simp at hx
          subst hx
          exact lookStep_opaque vm _ _ c (by simpa [foldc] using hf) hc
      · rw [if_neg hseg] at hx
        rw [getLoop_go vm false first acc cs isopq v ok hsl hseg]
        rcases List.mem_append.mp hx with hx1 | hx2
        · -- x is the root prefix (only when first)
          rcases first with _ | _
          · simp at hx1
          · simp at hx1
            subst hx1
            apply getLoop_mono
            apply lookStep_mono
            simp only [if_pos rfl]
            exact lookStep_opaque vm _ _ c (by simpa [foldc] using hf) hc
        · rcases List.mem_cons.mp hx2 with hx3 | hx4
          · subst hx3
            apply getLoop_mono
            exact lookStep_opaque vm _ _ c (by simpa [foldc] using hf) hc
          · exact ih false _ _ _ _ _ x c (by simpa [foldc] using hx4) hf hc

/-- A client-side sequence of `Set` calls. -/
def applySets (pm : Pathmap) (l : List (String × Nat)) : Pathmap :=
  l.foldl (fun pm1 pv => pm1.Set pv.1 pv.2) pm

theorem Set_caseins (pm : Pathmap) (p : String) (v : Nat) :
    (pm.Set p v).caseins = pm.caseins := by
  rw [Pathmap.Set]
  split
  · rfl
  · rfl

theorem Set_ofs (pm : Pathmap) (p : String) (v : Nat) :
    (pm.Set p v).ofs = pm.ofs := by
  rw [Pathmap.Set]
  split
  · rfl
  · rfl

theorem applySets_caseins (l : List (String × Nat)) : ∀ (pm : Pathmap),
    (applySets pm l).caseins = pm.caseins := by
  induction l with
  | nil => intro pm; rfl
  | cons pv rest ih =>
    intro pm
    rw [applySets, List.foldl_cons]
    rw [show List.foldl (fun pm1 pv => pm1.Set pv.1 pv.2) (pm.Set pv.1 pv.2) rest =
      applySets (pm.Set pv.1 pv.2) rest from rfl]
    rw [ih, Set_caseins]

theorem applySets_ofs (l : List (String × Nat)) : ∀ (pm : Pathmap),
    (applySets pm l).ofs = pm.ofs := by
  induction l with
  | nil => intro pm; rfl
  | cons pv rest ih =>
    intro pm
    rw [applySets, List.foldl_cons]
    rw [show List.foldl (fun pm1 pv => pm1.Set pv.1 pv.2) (pm.Set pv.1 pv.2) rest =
      applySets (pm.Set pv.1 pv.2) rest from rfl]
    rw [ih, Set_ofs]

theorem applySets_append (pm : Pathmap) (l1 l2 : List (String × Nat)) :
    applySets pm (l1 ++ l2) = applySets (applySets pm l1) l2 := by
  rw [applySets, applySets, applySets, List.foldl_append]

theorem Set_find_ne (pm : Pathmap) (p : String) (v : Nat) (k : Pathkey)
    (hne : ComputePathkey p pm.caseins ≠ k) :
    vmFind (pm.Set p v).vm k = vmFind pm.vm k := by
  rw [Pathmap.Set]
  split
  · rfl
  · show vmFind (pm.set (ComputePathkey p pm.caseins)
      ((vmFind pm.vm (ComputePathkey p pm.caseins)).getD UNKNOWN) v).vm k = vmFind pm.vm k
    rw [Pathmap.set]
    exact vmFind_insert_ne pm.vm _ k _ (fun h => hne h.symm)

theorem Set_opaque_kind (pm : Pathmap) (p : String) :
    ∃ c, vmFind (pm.Set p OPAQUE).vm (ComputePathkey p pm.caseins) = some c ∧
      c &&& MASK = OPAQUE := by
  rw [Pathmap.Set, if_neg (by decide : ¬MAXVIS < OPAQUE)]
  show ∃ c, vmFind (pm.set (ComputePathkey p pm.caseins)
    ((vmFind pm.vm (ComputePathkey p pm.caseins)).getD UNKNOWN) OPAQUE).vm
      (ComputePathkey p pm.caseins) = some c ∧ c &&& MASK = OPAQUE
  rw [Pathmap.set]
  set u := (vmFind pm.vm (ComputePathkey p pm.caseins)).getD UNKNOWN with hu
  refine ⟨_, vmFind_insert_self _ _ _, ?_⟩
  show ((if u &&& DIRT = 0 then
      (if (if u &&& MASK ≤ MAXIDX then UNKNOWN else u &&& MASK) ≠
          (if OPAQUE &&& MASK ≤ MAXIDX then UNKNOWN else OPAQUE &&& MASK) then DIRT else 0)
    else u &&& DIRT) ||| OPAQUE) &&& MASK = OPAQUE
  have hd : ∀ d, d = 0 ∨ d = DIRT → (d ||| OPAQUE) &&& MASK = OPAQUE := by
    intro d hcase
    rcases hcase with hc | hc <;> rw [hc]
    · rw [lor_zero_left]; decide
    · rw [lor_dirt_and_mask]; decide
  apply hd
  split
  · by_cases hcc : ((if u &&& MASK ≤ MAXIDX then UNKNOWN else u &&& MASK) ≠
        (if OPAQUE &&& MASK ≤ MAXIDX then UNKNOWN else OPAQUE &&& MASK))
    · right; rw [if_pos hcc]
    · left; rw [if_neg hcc]
  · rcases and_dirt_cases u with h0 | h0
    · next hne => exact absurd h0 hne
    · right; rw [h0]; rfl

theorem applySets_find_preserved (post : List (String × Nat)) : ∀ (pm : Pathmap)
    (k : Pathkey), (∀ pv ∈ post, ComputePathkey pv.1 pm.caseins ≠ k) →
    vmFind (applySets pm post).vm k = vmFind pm.vm k := by
  induction post with
  | nil => intro pm k _; rfl
  | cons pv rest ih =>
    intro pm k h
    rw [applySets, List.foldl_cons]
    rw [show List.foldl (fun pm1 pv => pm1.Set pv.1 pv.2) (pm.Set pv.1 pv.2) rest =
      applySets (pm.Set pv.1 pv.2) rest from rfl]
    have h1 : ∀ pv2 ∈ rest, ComputePathkey pv2.1 (pm.Set pv.1 pv.2).caseins ≠ k := by
      intro pv2 hmem
      rw [Set_caseins]
      exact h pv2 (List.mem_cons_of_mem _ hmem)
    rw [ih (pm.Set pv.1 pv.2) k h1]
    exact Set_find_ne pm pv.1 pv.2 k (h pv (List.mem_cons_self _ _))

theorem Get_fst (pm : Pathmap) (path : String) :
    (pm.Get path).1 = (getLoop pm.vm pm.caseins true [] path.data false 0 false).1 := by
  rw [Pathmap.Get]
  split
  · rfl
  · rfl

/-- C6, confirmed: for every path `p` and every slash-separated ancestor
prefix `a` of `p` (root prefix included), a `Set(a, OPAQUE)` that no later
`Set` on `a` overwrites makes `Get(p)` return `isopq = true`. -/
theorem C6_ancestor_opaque (pre post : List (String × Nat)) (p a : String)
    (ha : a.data ∈ ancestors p)
    (hpost : ∀ pv ∈ post, pv.1 ≠ a) :
    ((applySets (emptyPm false) (pre ++ [(a, OPAQUE)] ++ post)).Get p).1 = true := by
  rw [applySets_append, applySets_append]
  set pm0 := applySets (emptyPm false) pre with hpm0
  have hci : pm0.caseins = false := by rw [hpm0, applySets_caseins]; rfl
  have hmid : applySets pm0 [(a, OPAQUE)] = pm0.Set a OPAQUE := rfl
  rw [hmid]
  set pm1 := pm0.Set a OPAQUE with hpm1
  have hci1 : pm1.caseins = false := by rw [hpm1, Set_caseins, hci]
  have hkey : ComputePathkey a pm0.caseins = a.data := by
    rw [hci]; rfl
  obtain ⟨c, hfc, hck⟩ := Set_opaque_kind pm0 a
  rw [hkey] at hfc
  have hpres : vmFind (applySets pm1 post).vm a.data = some c := by
    rw [applySets_find_preserved post pm1 a.data ?_, hfc]
    intro pv hmem
    rw [hci1]
    show pv.1.data ≠ a.data
    intro he
    exact hpost pv hmem (by
      have := congrArg String.mk he
      simpa using this)
  set pm2 := applySets pm1 post with hpm2
  have hci2 : pm2.caseins = false := by rw [hpm2, applySets_caseins, hci1]
  rw [Get_fst, hci2]
  exact getLoop_anc pm2.vm (p.data.length + 1) true [] p.data false 0 false a.data c
    ha hpres hck

/-- C6 witness: `Set("/d", OPAQUE)` makes `Get("/d/e")` opaque. -/
theorem C6_witness :
    ("/d".data ∈ ancestors "/d/e") ∧
      ((applySets (emptyPm false) ([] ++ [("/d", OPAQUE)] ++ [])).Get "/d/e").1 = true :=
  ⟨by decide, C6_ancestor_opaque [] [] "/d/e" "/d" (by decide)
    (fun pv h => absurd h (List.not_mem_nil pv))⟩

/-! ## Serialiser characterisation: the records a transaction writes -/

/-- State of the record loop after serialising a record list: the flushed
chunks, the running hash, the still-buffered records and the pending chunk
indicator. -/
structure SerSt where
  recs : List DiskRec
  acc : Digest
  cur : Digest
  chi : Nat
deriving Repr, DecidableEq

/-- The data records of a buffered digest. -/
def dataRecs (g : Digest) : List DiskRec := g.map (fun r => DiskRec.data r.1 r.2)

/-- Pure rendering of the record loop of `writeTransaction`: flush a `'P'`
chunk whenever the buffer holds 4095 records before an append. -/
def serChunks (acc cur : Digest) (chi : Nat) (l : Digest) : SerSt :=
  match l with
  | [] => ⟨[], acc, cur, chi⟩
  | r :: rest =>
    if 4096 * Pathkeylen ≤ Pathkeylen * (1 + cur.length) then
      let t := serChunks (acc ++ cur) [r] 48 rest
      ⟨DiskRec.header chi 80 cur.length (acc ++ cur) :: (dataRecs cur ++ t.recs),
        t.acc, t.cur, t.chi⟩
    else serChunks acc (cur ++ [r]) chi rest

/-- Append the final flush (`cmd` is `'A'` or `'S'`) to the flushed chunks. -/
def serFin (s : SerSt) (cmd : Nat) : List DiskRec :=
  s.recs ++
    (if 0 < s.cur.length then
      DiskRec.header s.chi cmd s.cur.length (s.acc ++ s.cur) :: dataRecs s.cur
    else [])

/-- The complete record list a successful transaction writes for the
to-be-written map `vmOut`. -/
def serTx (vmOut : Vm) (incremental : Bool) : List DiskRec :=
  serFin (serChunks [] [] 49 (vmOut.map (fun kv => (kv.2 &&& MASK, kv.1))))
    (if incremental then 65 else 83)

theorem serChunks_nil (acc cur : Digest) (chi : Nat) :
    serChunks acc cur chi [] = ⟨[], acc, cur, chi⟩ := rfl

theorem serChunks_cons (r : Nat × Pathkey) (rest : Digest) (acc cur : Digest)
    (chi : Nat) :
    serChunks acc cur chi (r :: rest) =
      if 4096 * Pathkeylen ≤ Pathkeylen * (1 + cur.length) then
        ⟨DiskRec.header chi 80 cur.length (acc ++ cur) ::
            (dataRecs cur ++ (serChunks (acc ++ cur) [r] 48 rest).recs),
          (serChunks (acc ++ cur) [r] 48 rest).acc,
          (serChunks (acc ++ cur) [r] 48 rest).cur,
          (serChunks (acc ++ cur) [r] 48 rest).chi⟩
      else serChunks acc (cur ++ [r]) chi rest := rfl

theorem serChunks_cur_pos (l : Digest) : ∀ (acc cur : Digest) (chi : Nat),
    0 < cur.length ∨ 0 < l.length → 0 < (serChunks acc cur chi l).cur.length := by
  induction l with
  | nil =>
    intro acc cur chi h
    rcases h with h | h
    · exact h
    · simp at h
  | cons r rest ih =>
    intro acc cur chi h
    rw [serChunks_cons]
    split
    · exact ih _ _ _ (Or.inl (by simp))
    · exact ih _ _ _ (Or.inl (by simp))

theorem wtLoop_nil (acc cur : Digest) (chi ofs : Nat) (fs : Fs) :
    wtLoop [] acc cur chi ofs fs = .ok acc cur chi ofs fs := rfl

theorem wtLoop_cons (k : Pathkey) (v : Nat) (rest : Vm) (acc cur : Digest)
    (chi ofs : Nat) (fs : Fs) :
    wtLoop ((k, v) :: rest) acc cur chi ofs fs =
      if 4096 * Pathkeylen ≤ Pathkeylen * (1 + cur.length) then
        match flushChunk fs acc cur chi 80 ofs with
        | .fail e ofs1 fs1 => .fail e ofs1 fs1
        | .ok acc1 ofs1 fs1 => wtLoop rest acc1 [(v &&& MASK, k)] 48 ofs1 fs1
      else wtLoop rest acc (cur ++ [(v &&& MASK, k)]) chi ofs fs := rfl

/-- Writing at the end of the file appends. -/
theorem listWrite_append (file recs : List DiskRec) :
    listWrite file file.length recs = file ++ recs := by
  rw [listWrite, Nat.sub_self]
  rw [List.drop_eq_nil_of_le (by omega)]
  simp

theorem fsWrite_append (fs : Fs) (recs : List DiskRec) (hw : fs.werr = none) :
    fs.write recs fs.recs.length =
      (((Pathkeylen * recs.length : Nat) : Int),
        { fs with recs := fs.recs ++ recs, torn := 0 }) := by
  simp only [Fs.write, hw, listWrite_append]
  rw [if_pos (by omega)]

/-- A chunk flush at the end of a reliable file appends the header and the
buffered data records. -/
theorem flushChunk_append (fs : Fs) (acc cur : Digest) (chi cmd : Nat)
    (hw : fs.werr = none) :
    flushChunk fs acc cur chi cmd (Pathkeylen * fs.recs.length) =
      .ok (acc ++ cur) (Pathkeylen * (fs.recs.length + (1 + cur.length)))
        { fs with
          recs := fs.recs ++
            (DiskRec.header chi cmd cur.length (acc ++ cur) :: dataRecs cur),
          torn := 0 } := by
  have hdiv : Pathkeylen * fs.recs.length / Pathkeylen = fs.recs.length :=
    Nat.mul_div_cancel_left _ (by rw [Pathkeylen]; omega)
  simp only [flushChunk, hdiv, fsWrite_append fs _ hw]
  rw [if_neg (by omega), if_neg (by simp)]
  simp only [dataRecs, List.length_cons, List.length_map]
  congr 1
  rw [Pathkeylen]
  omega

/-- The record loop on a reliable file, writing at the end, appends the
serialised chunks and ends in the serialiser's state. -/
theorem wtLoop_ser (vmOut : Vm) : ∀ (acc cur : Digest) (chi : Nat) (fs : Fs),
    fs.werr = none → fs.torn = 0 →
    wtLoop vmOut acc cur chi (Pathkeylen * fs.recs.length) fs =
      .ok (serChunks acc cur chi (vmOut.map (fun kv => (kv.2 &&& MASK, kv.1)))).acc
        (serChunks acc cur chi (vmOut.map (fun kv => (kv.2 &&& MASK, kv.1)))).cur
        (serChunks acc cur chi (vmOut.map (fun kv => (kv.2 &&& MASK, kv.1)))).chi
        (Pathkeylen * (fs.recs.length +
          (serChunks acc cur chi (vmOut.map (fun kv => (kv.2 &&& MASK, kv.1)))).recs.length))
        { fs with recs := fs.recs ++
            (serChunks acc cur chi (vmOut.map (fun kv => (kv.2 &&& MASK, kv.1)))).recs } := by
  induction vmOut with
  | nil =>
    intro acc cur chi fs hw ht
    simp [wtLoop_nil, serChunks_nil]
  | cons kv rest ih =>
    intro acc cur chi fs hw ht
    obtain ⟨k, v⟩ := kv
    by_cases hfull : 4096 * Pathkeylen ≤ Pathkeylen * (1 + cur.length)
    · rw [wtLoop_cons, if_pos hfull, flushChunk_append _ acc cur chi 80 hw]
      show wtLoop rest (acc ++ cur) [(v &&& MASK, k)] 48
          (Pathkeylen * (fs.recs.length + (1 + cur.length)))
          (Fs.mk
            (fs.recs ++ (DiskRec.header chi 80 cur.length (acc ++ cur) :: dataRecs cur))
            0 fs.werr fs.ferr fs.terr) = _
      have hlen : (Fs.mk
          (fs.recs ++ (DiskRec.header chi 80 cur.length (acc ++ cur) :: dataRecs cur))
          0 fs.werr fs.ferr fs.terr).recs.length = fs.recs.length + (1 + cur.length) := by
        simp [dataRecs]
        omega
      rw [← hlen, ih (acc ++ cur) [(v &&& MASK, k)] 48
        (Fs.mk
          (fs.recs ++ (DiskRec.header chi 80 cur.length (acc ++ cur) :: dataRecs cur))
          0 fs.werr fs.ferr fs.terr)
        hw rfl, hlen]
      simp only [List.map_cons, serChunks_cons, if_pos hfull]
      congr 1
      · simp [dataRecs]
        exact Or.inl (by omega)
      · simp [dataRecs]
        exact ht.symm
    · rw [wtLoop_cons, if_neg hfull, ih _ _ _ _ hw ht]
      simp only [List.map_cons, serChunks_cons, if_neg hfull]

theorem wtFinish_ok (pm1 : Pathmap) (vmOut : Vm) (truncate sync : Bool) (ofs0 : Nat)
    (a : Digest) (ofs2 : Nat) (fs2 : Fs) :
    wtFinish pm1 vmOut truncate sync ofs0 (.ok a ofs2 fs2) =
      if ofs2 = ofs0 then (0, pm1.writeEnd 0 ofs2 vmOut, fs2)
      else
        if (if sync then fs2.fsync else 0) ≠ 0 ∧ (if sync then fs2.fsync else 0) ≠ -38 then
          ((if sync then fs2.fsync else 0),
            pm1.writeEnd (if sync then fs2.fsync else 0) ofs2 vmOut, fs2)
        else if truncate then
          if (fs2.truncate (ofs2 / Pathkeylen)).1 ≠ 0 then
            ((fs2.truncate (ofs2 / Pathkeylen)).1,
              pm1.writeEnd (fs2.truncate (ofs2 / Pathkeylen)).1 ofs2 vmOut,
              (fs2.truncate (ofs2 / Pathkeylen)).2)
          else
            if (if sync then (fs2.truncate (ofs2 / Pathkeylen)).2.fsync else 0) ≠ 0 ∧
                (if sync then (fs2.truncate (ofs2 / Pathkeylen)).2.fsync else 0) ≠ -38 then
              ((if sync then (fs2.truncate (ofs2 / Pathkeylen)).2.fsync else 0),
                pm1.writeEnd (if sync then (fs2.truncate (ofs2 / Pathkeylen)).2.fsync else 0)
                  ofs2 vmOut,
                (fs2.truncate (ofs2 / Pathkeylen)).2)
            else (1, pm1.writeEnd 1 ofs2 vmOut, (fs2.truncate (ofs2 / Pathkeylen)).2)
        else (1, pm1.writeEnd 1 ofs2 vmOut, fs2) := rfl

/-- An incremental transaction on a reliable file, invoked at the current
end of the file with a nonempty to-be-written map, appends exactly the
serialised transaction `serTx` and reports success. -/
theorem writeTransaction_incr (pm : Pathmap) (fs : Fs) (sync : Bool)
    (hw : fs.werr = none) (ht : fs.torn = 0) (hf : fs.ferr = none)
    (hne : (pm.writeBegin true).1 ≠ []) :
    pm.writeTransaction fs true (Pathkeylen * fs.recs.length) sync =
      (1,
        (pm.writeBegin true).2.writeEnd 1
          (Pathkeylen * (fs.recs.length + (serTx (pm.writeBegin true).1 true).length))
          (pm.writeBegin true).1,
        { fs with recs := fs.recs ++ serTx (pm.writeBegin true).1 true }) := by
  rw [Pathmap.writeTransaction]
  rw [wtLoop_ser ((pm.writeBegin true).1) [] [] 49 fs hw ht]
  set S := serChunks [] [] 49
    (List.map (fun kv => (kv.2 &&& MASK, kv.1)) (pm.writeBegin true).1) with hS
  have hcur : 0 < S.cur.length := by
    rw [hS]
    exact serChunks_cur_pos _ _ _ _ (Or.inr (by simpa using List.length_pos.mpr hne))
  split
  · next e ofs1 fs1 heq => cases heq
  next acc2 cur2 chi2 ofs1 fs1 heq =>
  injection heq with h1 h2 h3 h4 h5
  subst h1
  subst h2
  subst h3
  subst h4
  subst h5
  rw [if_pos hcur]
  have hElen : (Fs.mk (fs.recs ++ S.recs) fs.torn fs.werr fs.ferr fs.terr).recs.length =
      fs.recs.length + S.recs.length := by simp
  rw [← hElen]
  rw [if_pos rfl]
  rw [flushChunk_append (Fs.mk (fs.recs ++ S.recs) fs.torn fs.werr fs.ferr fs.terr)
    S.acc S.cur S.chi 65 hw]
  rw [wtFinish_ok]
  rw [if_neg (by rw [hElen]; simp only [Pathkeylen]; omega)]
  rw [if_neg (by simp [Fs.fsync, hf])]
  simp only [Bool.not_true, Bool.false_and, Bool.false_eq_true, if_false]
  rw [serTx, ← hS, serFin, if_pos hcur]
  simp only [if_pos rfl]
  congr 2
  · congr 1
    rw [hElen]
    simp [dataRecs, Pathkeylen]
    omega
  · simp only [List.append_assoc, List.cons_append]
    congr 1
    exact ht.symm

/-- A record list that fits in the buffer together with the already
buffered records is buffered whole, with no flush. -/
theorem serChunks_small (l : Digest) : ∀ (acc cur : Digest) (chi : Nat),
    cur.length + l.length ≤ 4095 →
    serChunks acc cur chi l = ⟨[], acc, cur ++ l, chi⟩ := by
  induction l with
  | nil =>
    intro acc cur chi h
    simp [serChunks_nil]
  | cons r rest ih =>
    intro acc cur chi h
    simp only [List.length_cons] at h
    rw [serChunks_cons, if_neg (by simp only [Pathkeylen]; omega)]
    rw [ih _ _ _ (by simp only [List.length_append, List.length_cons, List.length_nil]; omega)]
    simp

/-- Buffering a prefix that does not overflow the buffer. -/
theorem serChunks_prefix (l1 : Digest) : ∀ (l2 acc cur : Digest) (chi : Nat),
    cur.length + l1.length ≤ 4095 →
    serChunks acc cur chi (l1 ++ l2) = serChunks acc (cur ++ l1) chi l2 := by
  induction l1 with
  | nil =>
    intro l2 acc cur chi h
    simp
  | cons r rest ih =>
    intro l2 acc cur chi h
    simp only [List.length_cons] at h
    simp only [List.cons_append]
    rw [serChunks_cons, if_neg (by simp only [Pathkeylen]; omega)]
    rw [ih _ _ _ _ (by simp only [List.length_append, List.length_cons, List.length_nil]; omega)]
    simp

/-- Header-record recogniser. -/
def isHeader : DiskRec → Bool
  | .header _ _ _ _ => true
  | .data _ _ => false

/-- The declared record count of a header record (0 on data records). -/
def hdrCnt : DiskRec → Nat
  | .header _ _ cnt _ => cnt
  | .data _ _ => 0

theorem filter_isHeader_dataRecs (g : Digest) : (dataRecs g).filter isHeader = [] := by
  induction g with
  | nil => rfl
  | cons r rest ih =>
    simp only [dataRecs, List.map_cons] at *
    rw [List.filter_cons_of_neg (by simp [isHeader])]
    exact ih

theorem map_hdrCnt_dataRecs (g : Digest) : ((dataRecs g).map hdrCnt).sum = 0 := by
  induction g with
  | nil => rfl
  | cons r rest ih =>
    simp only [dataRecs, List.map_cons, List.sum_cons] at *
    simpa [hdrCnt] using ih

/-- A 4096-record map serialises as two chunks: a full `'P'` chunk of 4095
records and a final chunk of 1. -/
theorem serTx_4096 (vmOut : Vm) (incr : Bool) (hn : vmOut.length = 4096) :
    ((serTx vmOut incr).filter isHeader).length = 2 ∧
    ((serTx vmOut incr).map hdrCnt).sum = 4096 := by
  set l := vmOut.map (fun kv => (kv.2 &&& MASK, kv.1)) with hl
  have hll : l.length = 4096 := by rw [hl, List.length_map, hn]
  have h1 : (l.take 4095).length = 4095 := by rw [List.length_take]; omega
  have h2 : (l.drop 4095).length = 1 := by rw [List.length_drop]; omega
  obtain ⟨r, hr⟩ := List.length_eq_one.mp h2
  have hser : serChunks [] [] 49 l = serChunks [] ([] ++ l.take 4095) 49 (l.drop 4095) := by
    conv_lhs => rw [← List.take_append_drop 4095 l]
    exact serChunks_prefix _ _ _ _ _ (by rw [h1]; simp)
  rw [serTx, ← hl, hser, hr]
  rw [serChunks_cons, if_pos (by simp only [List.nil_append, h1, Pathkeylen]; omega)]
  rw [serChunks_nil]
  rw [serFin]
  simp only [List.nil_append]
  rw [if_pos (by simp)]
  constructor
  · simp [List.filter_append, filter_isHeader_dataRecs, isHeader,
      List.filter_cons_of_pos]
  · simp [List.map_append, List.sum_append, map_hdrCnt_dataRecs, hdrCnt, h1]

/-- C8: a single transaction holding exactly 4096 data records is written as
exactly two chunks: of the records appended to the file, exactly two are
header records, and their declared record counts sum to 4096. -/
theorem C8_chunking (pm : Pathmap) (fs : Fs) (sync : Bool)
    (hw : fs.werr = none) (ht : fs.torn = 0) (hf : fs.ferr = none)
    (hn : (pm.writeBegin true).1.length = 4096) :
    ((((pm.writeTransaction fs true (Pathkeylen * fs.recs.length) sync).2.2.recs.drop
        fs.recs.length).filter isHeader).length = 2) ∧
    ((((pm.writeTransaction fs true (Pathkeylen * fs.recs.length) sync).2.2.recs.drop
        fs.recs.length).map hdrCnt).sum = 4096) := by
  have hne : (pm.writeBegin true).1 ≠ [] := by
    intro h
    rw [h] at hn
    simp at hn
  rw [writeTransaction_incr pm fs sync hw ht hf hne]
  simp only [List.drop_left]
  exact serTx_4096 _ _ hn

theorem vmInsert_length_fresh (vm : Vm) (k : Pathkey) (v : Nat)
    (h : vmFind vm k = none) : (vmInsert vm k v).length = vm.length + 1 := by
  rw [vmInsert_not_mem vm k v h]
  simp

/-- The loop body of incremental `writeBegin`. -/
def wbStep (st : Vm × Vm) (k : Pathkey) : Vm × Vm :=
  let v := (vmFind st.2 k).getD 0
  let out :=
    if v &&& MASK = WHITEOUT ∨ v &&& MASK = OPAQUE then vmInsert st.1 k v
    else vmInsert st.1 k NOTEXIST
  (out, vmInsert st.2 k (v &&& MASK))

theorem writeBegin_incr (pm : Pathmap) :
    pm.writeBegin true =
      ((pm.dl.foldl wbStep ([], pm.vm)).1,
        { pm with vm := (pm.dl.foldl wbStep ([], pm.vm)).2, dl := [] }) := rfl

theorem wbFold_out_length (ks : List Pathkey) : ∀ (st : Vm × Vm),
    ks.Nodup → (∀ k ∈ ks, vmFind st.1 k = none) →
    ((ks.foldl wbStep st).1).length = st.1.length + ks.length := by
  induction ks with
  | nil =>
    intro st _ _
    simp
  | cons k rest ih =>
    intro st hnd hfr
    rw [List.foldl_cons]
    have hk : vmFind st.1 k = none := hfr k (by simp)
    have hlen1 : (wbStep st k).1.length = st.1.length + 1 := by
      rw [wbStep]
      split
      · exact vmInsert_length_fresh _ _ _ hk
      · exact vmInsert_length_fresh _ _ _ hk
    have hfr1 : ∀ k2 ∈ rest, vmFind (wbStep st k).1 k2 = none := by
      intro k2 hmem
      have hne : k2 ≠ k := by
        intro he
        rw [he] at hmem
        exact (List.nodup_cons.mp hnd).1 hmem
      have : vmFind (vmInsert st.1 k ((vmFind st.2 k).getD 0)) k2 = none ∧
          vmFind (vmInsert st.1 k NOTEXIST) k2 = none := by
        constructor
        · rw [vmFind_insert_ne _ _ _ _ hne]
          exact hfr k2 (by simp [hmem])
        · rw [vmFind_insert_ne _ _ _ _ hne]
          exact hfr k2 (by simp [hmem])
      rw [wbStep]
      split
      · exact this.1
      · exact this.2
    rw [ih (wbStep st k) (List.nodup_cons.mp hnd).2 hfr1, hlen1]
    simp
    omega

/-- Incremental `writeBegin` emits one record per dirty-list key. -/
theorem writeBegin_out_length (pm : Pathmap) (h : pm.dl.Nodup) :
    (pm.writeBegin true).1.length = pm.dl.length := by
  rw [writeBegin_incr]
  have h2 := wbFold_out_length pm.dl ([], pm.vm) h (fun k _ => rfl)
  simpa using h2

/-- A family of 4096 distinct keys and a map dirty at exactly those keys. -/
def ksW : List Pathkey := (List.range 4096).map (fun i => List.replicate i 'a')

def pmW : Pathmap := { caseins := false, vm := [], dl := ksW, ofs := 0 }

theorem ksW_nodup : ksW.Nodup := by
  refine List.Nodup.map ?_ (List.nodup_range 4096)
  intro a b h
  have := congrArg List.length h
  simpa using this

/-- C8 witness: writing a map with 4096 dirty keys on an empty reliable
file produces two header records with counts summing to 4096. -/
theorem C8_witness :
    ((((pmW.writeTransaction emptyFs true (Pathkeylen * emptyFs.recs.length)
        false).2.2.recs.drop emptyFs.recs.length).filter isHeader).length = 2) ∧
    ((((pmW.writeTransaction emptyFs true (Pathkeylen * emptyFs.recs.length)
        false).2.2.recs.drop emptyFs.recs.length).map hdrCnt).sum = 4096) :=
  C8_chunking pmW emptyFs false rfl rfl rfl
    (by
      have hdl : pmW.dl = ksW := by simp only [pmW]
      rw [writeBegin_out_length pmW (by rw [hdl]; exact ksW_nodup)]
      rw [hdl, ksW, List.length_map, List.length_range])

/-! ## Replay of a serialised transaction -/

/-- All record values in a digest already have the `DIRT` bit clear, as the
serialiser emits them. -/
def maskedD (g : Digest) : Prop := ∀ r ∈ g, r.1 &&& MASK = r.1

/-- The reader's temp map after consuming the data records `g`. -/
def tmpOf (g : Digest) (tmp : Vm) : Vm :=
  g.foldl (fun t r => vmInsert t r.2 (r.1 &&& MASK)) tmp

theorem tmpOf_append (a b : Digest) (t : Vm) :
    tmpOf (a ++ b) t = tmpOf b (tmpOf a t) := by
  rw [tmpOf, tmpOf, tmpOf, List.foldl_append]

theorem maskedD_append {a b : Digest} (ha : maskedD a) (hb : maskedD b) :
    maskedD (a ++ b) := by
  intro r hr
  rcases List.mem_append.mp hr with h | h
  · exact ha r h
  · exact hb r h

theorem maskedD_map (vmOut : Vm) :
    maskedD (vmOut.map (fun kv => (kv.2 &&& MASK, kv.1))) := by
  intro r hr
  rcases List.mem_map.mp hr with ⟨kv, _, he⟩
  rw [← he]
  exact and_mask_idem kv.2

theorem headerScan_header (ch1 : Bool) (ind cmd cnt : Nat) (hash : Digest)
    (rest : List DiskRec) (ofs : Nat) :
    headerScan ch1 (.header ind cmd cnt hash :: rest) ofs =
      if ch1 ∧ ind = 49 then .abort1 (DiskRec.header ind cmd cnt hash :: rest) ofs
      else if ch1 then
        if ind = 48 ∧ cmdOK cmd then .found cmd cnt hash rest (ofs + Pathkeylen)
        else .abortTrash rest (ofs + Pathkeylen)
      else
        if ind = 49 ∧ cmdOK cmd then .found cmd cnt hash rest (ofs + Pathkeylen)
        else headerScan ch1 rest (ofs + Pathkeylen) := rfl

/-- Reading exactly the declared number of data records consumes them into
the temp map and the running hash, with nothing left over. -/
theorem readRecords_data (g : Digest) : ∀ (tmp : Vm) (acc : Digest) (ofs : Nat)
    (rest : List DiskRec), maskedD g →
    readRecords g.length (dataRecs g ++ rest) tmp acc ofs =
      .done (tmpOf g tmp) (acc ++ g) rest (ofs + Pathkeylen * g.length) 0 := by
  induction g with
  | nil =>
    intro tmp acc ofs rest h
    simp [readRecords, dataRecs, tmpOf]
  | cons r g2 ih =>
    intro tmp acc ofs rest h
    have h1 : r.1 &&& MASK = r.1 := h r (by simp)
    simp only [dataRecs, List.map_cons, List.length_cons, List.cons_append]
    rw [readRecords]
    have h2 : maskedD g2 := fun x hx => h x (by simp [hx])
    rw [show (List.map (fun r => DiskRec.data r.1 r.2) g2 : List DiskRec) = dataRecs g2
      from rfl]
    rw [ih _ _ _ _ h2]
    simp only [tmpOf, List.foldl_cons, h1, RecsR.done.injEq, true_and, and_true]
    refine ⟨?_, ?_⟩
    · rw [List.append_assoc]
      simp
    · rw [Pathkeylen]
      omega

/-- The header scan accepts a chunk header whose indicator matches the
reader's position in the transaction. -/
theorem headerScan_ser (ch1 : Bool) (ind cmd cnt : Nat) (hash : Digest)
    (rest : List DiskRec) (ofs : Nat)
    (hind : (ind = 49 ∧ ch1 = false) ∨ (ind = 48 ∧ ch1 = true))
    (hcmd : cmdOK cmd = true) :
    headerScan ch1 (.header ind cmd cnt hash :: rest) ofs =
      .found cmd cnt hash rest (ofs + Pathkeylen) := by
  rcases hind with ⟨hi, hc⟩ | ⟨hi, hc⟩ <;> subst hi <;> subst hc
  · rw [headerScan_header]
    rw [if_neg (by simp)]
    rw [if_neg (by simp)]
    rw [if_pos ⟨rfl, hcmd⟩]
  · rw [headerScan_header]
    rw [if_neg (by simp)]
    rw [if_pos (by simp)]
    rw [if_pos ⟨rfl, hcmd⟩]

/-- Consuming one final (`'S'`/`'A'`) serialised chunk commits. -/
theorem chunkLoop_ser_commit (g acc : Digest) (ch1 : Bool) (chi cmdF : Nat) (vm : Vm)
    (ofs : Nat) (rest : List DiskRec)
    (hmg : maskedD g)
    (hchi : (chi = 49 ∧ ch1 = false) ∨ (chi = 48 ∧ ch1 = true))
    (hcf : cmdF = 83 ∨ cmdF = 65) :
    chunkLoop (DiskRec.header chi cmdF g.length (acc ++ g) :: (dataRecs g ++ rest))
      vm ofs (tmpOf acc []) acc ch1 true =
      (1, rest, applyTmp (if cmdF = 83 then [] else vm) (tmpOf (acc ++ g) []),
        ofs + Pathkeylen + Pathkeylen * g.length) := by
  have hcmdOK : cmdOK cmdF = true := by
    rcases hcf with h | h <;> subst h <;> rfl
  have hs := headerScan_ser ch1 chi cmdF g.length (acc ++ g) (dataRecs g ++ rest) ofs
    hchi hcmdOK
  have hr := readRecords_data g (tmpOf acc []) acc (ofs + Pathkeylen) rest hmg
  rw [chunkLoop_commit hs hr hcf]
  rw [if_pos (by simp)]
  rw [tmpOf_append]

/-- Consuming one intermediate (`'P'`) serialised chunk accumulates and
continues. -/
theorem chunkLoop_ser_next (g acc : Digest) (ch1 : Bool) (chi : Nat) (vm : Vm)
    (ofs : Nat) (rest : List DiskRec)
    (hmg : maskedD g)
    (hchi : (chi = 49 ∧ ch1 = false) ∨ (chi = 48 ∧ ch1 = true)) :
    chunkLoop (DiskRec.header chi 80 g.length (acc ++ g) :: (dataRecs g ++ rest))
      vm ofs (tmpOf acc []) acc ch1 true =
      chunkLoop rest vm (ofs + Pathkeylen + Pathkeylen * g.length)
        (tmpOf (acc ++ g) []) (acc ++ g) true true := by
  have hs := headerScan_ser ch1 chi 80 g.length (acc ++ g) (dataRecs g ++ rest) ofs
    hchi rfl
  have hr := readRecords_data g (tmpOf acc []) acc (ofs + Pathkeylen) rest hmg
  rw [chunkLoop_next hs hr (by omega)]
  rw [tmpOf_append]
  congr 1
  simp

/-- The chunk loop consumes a serialised transaction whole: every chunk
validates, and the final `'S'`/`'A'` chunk commits the accumulated temp
map, leaving any trailing records unread. -/
theorem chunkLoop_ser (l : Digest) : ∀ (acc cur : Digest) (chi : Nat) (ch1 : Bool)
    (vm : Vm) (ofs cmdF : Nat) (rest : List DiskRec),
    maskedD acc → maskedD cur → maskedD l →
    ((chi = 49 ∧ ch1 = false) ∨ (chi = 48 ∧ ch1 = true)) →
    (cmdF = 83 ∨ cmdF = 65) →
    ∃ ofs2,
      chunkLoop
        ((serChunks acc cur chi l).recs ++
          (DiskRec.header (serChunks acc cur chi l).chi cmdF
              (serChunks acc cur chi l).cur.length
              ((serChunks acc cur chi l).acc ++ (serChunks acc cur chi l).cur) ::
            dataRecs (serChunks acc cur chi l).cur) ++ rest)
        vm ofs (tmpOf acc []) acc ch1 true =
      (1, rest, applyTmp (if cmdF = 83 then [] else vm) (tmpOf (acc ++ cur ++ l) []),
        ofs2) := by
  induction l with
  | nil =>
    intro acc cur chi ch1 vm ofs cmdF rest hma hmc hml hchi hcf
    refine ⟨ofs + Pathkeylen + Pathkeylen * cur.length, ?_⟩
    rw [serChunks_nil]
    simp only [List.nil_append, List.cons_append]
    have hcc := chunkLoop_ser_commit cur acc ch1 chi cmdF vm ofs rest hmc hchi hcf
    rw [hcc]
    simp
  | cons r l2 ih =>
    intro acc cur chi ch1 vm ofs cmdF rest hma hmc hml hchi hcf
    have hmr : r.1 &&& MASK = r.1 := hml r (by simp)
    have hml2 : maskedD l2 := fun x hx => hml x (by simp [hx])
    have hmr1 : maskedD [r] := by
      intro x hx
      simp only [List.mem_singleton] at hx
      subst hx
      exact hmr
    by_cases hfull : 4096 * Pathkeylen ≤ Pathkeylen * (1 + cur.length)
    · rw [serChunks_cons, if_pos hfull]
      obtain ⟨ofs2, hrec⟩ := ih (acc ++ cur) [r] 48 true vm
        (ofs + Pathkeylen + Pathkeylen * cur.length) cmdF rest
        (maskedD_append hma hmc) hmr1 hml2 (Or.inr ⟨rfl, rfl⟩) hcf
      refine ⟨ofs2, ?_⟩
      simp only [List.cons_append, List.append_assoc, List.nil_append] at hrec ⊢
      rw [chunkLoop_ser_next cur acc ch1 chi vm ofs _ hmc hchi]
      exact hrec
    · rw [serChunks_cons, if_neg hfull]
      obtain ⟨ofs2, hrec⟩ := ih acc (cur ++ [r]) chi ch1 vm ofs cmdF rest hma
        (maskedD_append hmc hmr1) hml2 hchi hcf
      refine ⟨ofs2, ?_⟩
      simp only [List.cons_append, List.append_assoc, List.nil_append] at hrec ⊢
      exact hrec

/-! ## The dirty-list discipline maintained by `Set` -/

/-- State invariant of a map that has only ever been modified by `Set`
since it was opened: the dirty list has no duplicates, a stored cell has
its `DIRT` bit set exactly when its key is dirty-listed, dirty-listed keys
are stored, and a cell of durable kind (`WHITEOUT`/`OPAQUE`) is dirty. -/
def SInv (pm : Pathmap) : Prop :=
  pm.dl.Nodup ∧
  (∀ k cell, vmFind pm.vm k = some cell → (cell &&& DIRT ≠ 0 ↔ k ∈ pm.dl)) ∧
  (∀ k, k ∈ pm.dl → vmFind pm.vm k ≠ none) ∧
  (∀ k cell, vmFind pm.vm k = some cell →
    (cell &&& MASK = WHITEOUT ∨ cell &&& MASK = OPAQUE) → cell &&& DIRT ≠ 0)

theorem sInv_empty (ci : Bool) : SInv (emptyPm ci) := by
  refine ⟨List.nodup_nil, ?_, ?_, ?_⟩
  · intro k cell h
    simp [emptyPm, vmFind] at h
  · intro k h
    simp [emptyPm] at h
  · intro k cell h
    simp [emptyPm, vmFind] at h

/-- The dirt bit the common setter computes. -/
def setDirt (u v : Nat) : Nat :=
  if u &&& DIRT = 0 then
    if (if u &&& MASK ≤ MAXIDX then UNKNOWN else u &&& MASK) ≠
        (if v &&& MASK ≤ MAXIDX then UNKNOWN else v &&& MASK) then DIRT
    else 0
  else u &&& DIRT

theorem set_char (pm : Pathmap) (k : Pathkey) (u v : Nat) :
    pm.set k u v =
      { pm with
        vm := vmInsert pm.vm k (setDirt u v ||| v)
        dl := if u &&& DIRT ≠ setDirt u v then pm.dl ++ [k] else pm.dl } := rfl

/-- Updating a cell without touching the dirty list preserves the
invariant when the new cell agrees with the key's dirty-list status. -/
theorem sInv_upd_keep (pm : Pathmap) (k : Pathkey) (w : Nat) (h : SInv pm)
    (hcons : w &&& DIRT ≠ 0 ↔ k ∈ pm.dl)
    (hdur : (w &&& MASK = WHITEOUT ∨ w &&& MASK = OPAQUE) → w &&& DIRT ≠ 0) :
    SInv { pm with vm := vmInsert pm.vm k w } := by
  obtain ⟨hnd, hdirty, hpres, hdur0⟩ := h
  refine ⟨hnd, ?_, ?_, ?_⟩
  · intro k2 cell hf
    by_cases hk : k2 = k
    · subst hk
      rw [vmFind_insert_self] at hf
      cases hf
      exact hcons
    · rw [vmFind_insert_ne _ _ _ _ hk] at hf
      exact hdirty k2 cell hf
  · intro k2 hmem
    by_cases hk : k2 = k
    · subst hk
      rw [vmFind_insert_self]
      simp
    · rw [vmFind_insert_ne _ _ _ _ hk]
      exact hpres k2 hmem
  · intro k2 cell hf
    by_cases hk : k2 = k
    · subst hk
      rw [vmFind_insert_self] at hf
      cases hf
      exact hdur
    · rw [vmFind_insert_ne _ _ _ _ hk] at hf
      exact hdur0 k2 cell hf

/-- Dirtying a clean, not dirty-listed key preserves the invariant. -/
theorem sInv_upd_app (pm : Pathmap) (k : Pathkey) (w : Nat) (h : SInv pm)
    (hknot : k ∉ pm.dl) (hwd : w &&& DIRT ≠ 0) :
    SInv { pm with vm := vmInsert pm.vm k w, dl := pm.dl ++ [k] } := by
  obtain ⟨hnd, hdirty, hpres, hdur0⟩ := h
  refine ⟨?_, ?_, ?_, ?_⟩
  · simp [List.nodup_append, hnd, hknot]
  · intro k2 cell hf
    by_cases hk : k2 = k
    · subst hk
      rw [vmFind_insert_self] at hf
      cases hf
      simp [hwd]
    · rw [vmFind_insert_ne _ _ _ _ hk] at hf
      rw [hdirty k2 cell hf]
      simp [hk]
  · intro k2 hmem
    by_cases hk : k2 = k
    · subst hk
      rw [vmFind_insert_self]
      simp
    · rw [vmFind_insert_ne _ _ _ _ hk]
      refine hpres k2 ?_
      rcases List.mem_append.mp hmem with h2 | h2
      · exact h2
      · simp at h2
        exact absurd h2 hk
  · intro k2 cell hf
    by_cases hk : k2 = k
    · subst hk
      rw [vmFind_insert_self] at hf
      cases hf
      exact fun _ => hwd
    · rw [vmFind_insert_ne _ _ _ _ hk] at hf
      exact hdur0 k2 cell hf

theorem sInv_set_step (pm : Pathmap) (k : Pathkey) (v : Nat) (hvle : v ≤ MAXVIS)
    (h : SInv pm) :
    SInv (pm.set k ((vmFind pm.vm k).getD UNKNOWN) v) := by
  have hv128 : v < 128 := maxvis_lt v hvle
  have hvdirt : v &&& DIRT = 0 := and_dirt_small v hv128
  have hvmask : v &&& MASK = v := and_mask_small v hv128
  rw [set_char]
  cases hf : vmFind pm.vm k with
  | none =>
    simp only [Option.getD_none]
    have hknot : k ∉ pm.dl := fun hmem => (h.2.2.1 k hmem) hf
    have hud : UNKNOWN &&& DIRT = 0 := by decide
    have hum : UNKNOWN &&& MASK = UNKNOWN := by decide
    by_cases hvk : v &&& MASK ≤ MAXIDX
    · have hsd : setDirt UNKNOWN v = 0 := by
        rw [setDirt, if_pos hud, if_neg]
        rw [hum]
        rw [if_neg (by decide)]
        rw [if_pos hvk]
        simp
      simp only [hsd]
      rw [if_neg (by rw [hud]; simp)]
      rw [lor_zero_left]
      refine sInv_upd_keep pm k v h ?_ ?_
      · rw [hvdirt]
        simp [hknot]
      · intro hdk
        exfalso
        rw [hvmask] at hdk hvk
        have hlits : MAXIDX = 124 ∧ WHITEOUT = 125 ∧ OPAQUE = 126 := by decide
        omega
    · have hsd : setDirt UNKNOWN v = DIRT := by
        rw [setDirt, if_pos hud, if_pos]
        rw [hum]
        rw [if_neg (by decide)]
        rw [if_neg hvk]
        intro he
        rw [hvmask] at hvk
        have hlits : UNKNOWN = 127 ∧ MAXVIS = 126 := by decide
        rw [hvmask] at he
        omega
      simp only [hsd]
      rw [if_pos (by rw [hud]; decide)]
      refine sInv_upd_app pm k (DIRT ||| v) h hknot ?_
      rw [lor_dirt_and_dirt]
      decide
  | some c =>
    simp only [Option.getD_some]
    have hcd := h.2.1 k c hf
    rcases and_dirt_cases c with hc0 | hc0
    · have hknot : k ∉ pm.dl := fun hmem => hcd.mpr hmem hc0
      by_cases hkind : (if c &&& MASK ≤ MAXIDX then UNKNOWN else c &&& MASK) =
          (if v &&& MASK ≤ MAXIDX then UNKNOWN else v &&& MASK)
      · have hsd : setDirt c v = 0 := by
          rw [setDirt, if_pos hc0, if_neg]
          simpa using hkind
        simp only [hsd]
        rw [if_neg (by rw [hc0]; simp)]
        rw [lor_zero_left]
        refine sInv_upd_keep pm k v h ?_ ?_
        · rw [hvdirt]
          simp [hknot]
        · intro hdk
          exfalso
          rw [hvmask] at hdk
          have hlits : WHITEOUT = 125 ∧ OPAQUE = 126 ∧ MAXIDX = 124 ∧ UNKNOWN = 127 :=
            by decide
          have hv124 : ¬(v &&& MASK ≤ MAXIDX) := by
            rw [hvmask]
            omega
          rw [if_neg hv124, hvmask] at hkind
          by_cases hck : c &&& MASK ≤ MAXIDX
          · rw [if_pos hck] at hkind
            omega
          · rw [if_neg hck] at hkind
            have hcdur : c &&& MASK = WHITEOUT ∨ c &&& MASK = OPAQUE := by
              rw [hkind]
              exact hdk
            exact (h.2.2.2 k c hf hcdur) hc0
      · have hsd : setDirt c v = DIRT := by
          rw [setDirt, if_pos hc0, if_pos]
          simpa using hkind
        simp only [hsd]
        rw [if_pos (by rw [hc0]; decide)]
        refine sInv_upd_app pm k (DIRT ||| v) h hknot ?_
        rw [lor_dirt_and_dirt]
        decide
    · have hkin : k ∈ pm.dl := hcd.mp (by omega)
      have hsd : setDirt c v = DIRT := by
        rw [setDirt, if_neg (by omega)]
        rw [hc0]
        decide
      simp only [hsd]
      rw [if_neg (by rw [hc0]; decide)]
      refine sInv_upd_keep pm k (DIRT ||| v) h ?_ ?_
      · rw [lor_dirt_and_dirt]
        constructor
        · intro _
          exact hkin
        · intro _
          decide
      · intro _
        rw [lor_dirt_and_dirt]
        decide

theorem sInv_Set (pm : Pathmap) (p : String) (v : Nat) (h : SInv pm) :
    SInv (pm.Set p v) := by
  rw [Pathmap.Set]
  split
  · exact h
  · next hv =>
    show SInv (pm.set (ComputePathkey p pm.caseins)
      ((vmFind pm.vm (ComputePathkey p pm.caseins)).getD UNKNOWN) v)
    exact sInv_set_step pm _ v (by omega) h

theorem sInv_applySets (l : List (String × Nat)) : ∀ (pm : Pathmap), SInv pm →
    SInv (applySets pm l) := by
  induction l with
  | nil =>
    intro pm h
    exact h
  | cons pv rest ih =>
    intro pm h
    rw [applySets, List.foldl_cons]
    rw [show List.foldl (fun pm1 pv => pm1.Set pv.1 pv.2) (pm.Set pv.1 pv.2) rest =
      applySets (pm.Set pv.1 pv.2) rest from rfl]
    exact ih _ (sInv_Set pm pv.1 pv.2 h)

/-! ## What incremental `writeBegin` emits, record by record -/

/-- The record value `writeBegin` emits for a dirty key whose cell is `u`:
the cell itself when its kind is durable, a `NOTEXIST` deletion record
otherwise. -/
def wbEmit (u : Nat) : Nat :=
  if u &&& MASK = WHITEOUT ∨ u &&& MASK = OPAQUE then u else NOTEXIST

theorem wbStep_eq (st : Vm × Vm) (k : Pathkey) :
    wbStep st k = (vmInsert st.1 k (wbEmit ((vmFind st.2 k).getD 0)),
      vmInsert st.2 k (((vmFind st.2 k).getD 0) &&& MASK)) := by
  simp only [wbStep, wbEmit]
  split
  · rfl
  · rfl

theorem wbFold_find (ks : List Pathkey) : ∀ (st : Vm × Vm) (k : Pathkey),
    ks.Nodup → (∀ k2 ∈ ks, vmFind st.1 k2 = none) →
    (k ∈ ks → vmFind ((ks.foldl wbStep st).1) k =
      some (wbEmit ((vmFind st.2 k).getD 0))) ∧
    (k ∉ ks → vmFind ((ks.foldl wbStep st).1) k = vmFind st.1 k) := by
  induction ks with
  | nil =>
    intro st k _ _
    refine ⟨?_, ?_⟩
    · intro hmem
      simp at hmem
    · intro _
      rfl
  | cons k0 rest ih =>
    intro st k hnd hfr
    have hnd2 := (List.nodup_cons.mp hnd).2
    have hk0 := (List.nodup_cons.mp hnd).1
    rw [List.foldl_cons]
    have hfr2 : ∀ k2 ∈ rest, vmFind (wbStep st k0).1 k2 = none := by
      intro k2 hmem
      have hne : k2 ≠ k0 := by
        intro he
        rw [he] at hmem
        exact hk0 hmem
      rw [wbStep_eq]
      rw [vmFind_insert_ne _ _ _ _ hne]
      exact hfr k2 (by simp [hmem])
    have ih2 := ih (wbStep st k0) k hnd2 hfr2
    refine ⟨?_, ?_⟩
    · intro hmem
      rcases List.mem_cons.mp hmem with he | hmem2
      · subst he
        rw [ih2.2 (fun hc => hk0 hc)]
        rw [wbStep_eq]
        rw [vmFind_insert_self]
      · have hne : k ≠ k0 := by
          intro he2
          rw [he2] at hmem2
          exact hk0 hmem2
        rw [ih2.1 hmem2]
        simp only [wbStep_eq]
        rw [vmFind_insert_ne _ _ _ _ hne]
    · intro hmem
      have hne : k ≠ k0 := fun he => hmem (by rw [he]; simp)
      have hmem2 : k ∉ rest := fun hc => hmem (by simp [hc])
      rw [ih2.2 hmem2]
      rw [wbStep_eq]
      exact vmFind_insert_ne _ _ _ _ hne

theorem wbFold_keys (ks : List Pathkey) : ∀ (st : Vm × Vm), ks.Nodup →
    (∀ k2 ∈ ks, vmFind st.1 k2 = none) →
    ((ks.foldl wbStep st).1).map Prod.fst = st.1.map Prod.fst ++ ks := by
  induction ks with
  | nil =>
    intro st _ _
    simp
  | cons k0 rest ih =>
    intro st hnd hfr
    have hnd2 := (List.nodup_cons.mp hnd).2
    have hk0 := (List.nodup_cons.mp hnd).1
    rw [List.foldl_cons]
    have hfr2 : ∀ k2 ∈ rest, vmFind (wbStep st k0).1 k2 = none := by
      intro k2 hmem
      have hne : k2 ≠ k0 := by
        intro he
        rw [he] at hmem
        exact hk0 hmem
      rw [wbStep_eq]
      rw [vmFind_insert_ne _ _ _ _ hne]
      exact hfr k2 (by simp [hmem])
    rw [ih (wbStep st k0) hnd2 hfr2]
    rw [wbStep_eq]
    rw [vmInsert_not_mem _ _ _ (hfr k0 (by simp))]
    simp

/-- Lookup in the to-be-written map of incremental `writeBegin`. -/
theorem writeBegin_find (pm : Pathmap) (hnd : pm.dl.Nodup) (k : Pathkey) :
    (k ∈ pm.dl → vmFind (pm.writeBegin true).1 k =
      some (wbEmit ((vmFind pm.vm k).getD 0))) ∧
    (k ∉ pm.dl → vmFind (pm.writeBegin true).1 k = none) := by
  rw [writeBegin_incr]
  have h := wbFold_find pm.dl ([], pm.vm) k hnd (fun _ _ => rfl)
  exact h

/-- The keys of the to-be-written map are exactly the dirty list. -/
theorem writeBegin_keys (pm : Pathmap) (hnd : pm.dl.Nodup) :
    ((pm.writeBegin true).1).map Prod.fst = pm.dl := by
  rw [writeBegin_incr]
  have h := wbFold_keys pm.dl ([], pm.vm) hnd (fun _ _ => rfl)
  simpa using h

theorem vmInsert_keys_nodup (vm : Vm) (k : Pathkey) (v : Nat)
    (h : (vm.map Prod.fst).Nodup) : ((vmInsert vm k v).map Prod.fst).Nodup := by
  cases hf : vmFind vm k with
  | none =>
    rw [vmInsert_not_mem _ _ _ hf]
    have hk := (vmFind_eq_none vm k).mp hf
    simp [List.nodup_append, h, hk]
  | some c =>
    rw [vmInsert_keys _ _ _ (by rw [hf]; simp)]
    exact h

theorem vmErase_sublist (vm : Vm) (k : Pathkey) : (vmErase vm k).Sublist vm := by
  induction vm with
  | nil => simp [vmErase]
  | cons kv rest ih =>
    rw [vmErase]
    split
    · exact List.sublist_cons_self kv rest
    · exact List.Sublist.cons₂ kv ih

theorem vmErase_keys_nodup (vm : Vm) (k : Pathkey)
    (h : (vm.map Prod.fst).Nodup) : ((vmErase vm k).map Prod.fst).Nodup :=
  ((vmErase_sublist vm k).map Prod.fst).nodup h

/-- The reader's temp map for records with pairwise distinct keys is the
association list of the records themselves. -/
theorem tmpOf_fresh (g : Digest) : ∀ (base : Vm),
    (∀ r ∈ g, vmFind base r.2 = none) → ((g.map Prod.snd).Nodup) →
    tmpOf g base = base ++ g.map (fun r => (r.2, r.1 &&& MASK)) := by
  induction g with
  | nil =>
    intro base _ _
    simp [tmpOf]
  | cons r g2 ih =>
    intro base hfr hnd
    simp only [List.map_cons, List.nodup_cons] at hnd
    show tmpOf g2 (vmInsert base r.2 (r.1 &&& MASK)) = _
    rw [vmInsert_not_mem base r.2 _ (hfr r (by simp))]
    rw [ih (base ++ [(r.2, r.1 &&& MASK)]) ?_ hnd.2]
    · simp
    · intro x hx
      have hne : x.2 ≠ r.2 := by
        intro he
        exact hnd.1 (he ▸ List.mem_map_of_mem Prod.snd hx)
      rw [vmFind_append_right _ _ _ (hfr x (by simp [hx]))]
      rw [vmFind]
      rw [if_neg (fun he => hne he.symm)]
      rfl

/-- The accumulated temp map of a serialised incremental transaction. -/
theorem tmpAll_eq (vmOut : Vm) (hnd : ((vmOut.map Prod.fst).Nodup)) :
    tmpOf (vmOut.map (fun kv => (kv.2 &&& MASK, kv.1))) [] =
      vmOut.map (fun kv => (kv.1, kv.2 &&& MASK)) := by
  rw [tmpOf_fresh _ [] (fun r _ => rfl) ?_]
  · simp only [List.nil_append, List.map_map]
    apply List.map_congr_left
    intro kv _
    simp [Function.comp, and_mask_idem]
  · simpa [List.map_map, Function.comp] using hnd

/-- Lookup after committing a temp map with distinct keys: durable kinds
are stored, `NOTEXIST` deletes, anything else leaves the base alone. -/
theorem applyTmp_find (tmp : Vm) : ∀ (base : Vm) (k : Pathkey),
    ((tmp.map Prod.fst).Nodup) → ((base.map Prod.fst).Nodup) →
    vmFind (applyTmp base tmp) k =
      (match vmFind tmp k with
      | some v =>
        if v = WHITEOUT ∨ v = OPAQUE then some v
        else if v = NOTEXIST then none
        else vmFind base k
      | none => vmFind base k) := by
  induction tmp with
  | nil =>
    intro base k _ _
    rfl
  | cons kv rest ih =>
    intro base k hnd hbase
    obtain ⟨k1, v1⟩ := kv
    simp only [List.map_cons, List.nodup_cons] at hnd
    have hstep : applyTmp base ((k1, v1) :: rest) =
        applyTmp (if v1 = WHITEOUT ∨ v1 = OPAQUE then vmInsert base k1 v1
          else if v1 = NOTEXIST then vmErase base k1 else base) rest := rfl
    rw [hstep]
    have hbase2 : ((if v1 = WHITEOUT ∨ v1 = OPAQUE then vmInsert base k1 v1
        else if v1 = NOTEXIST then vmErase base k1 else base).map Prod.fst).Nodup := by
      split
      · exact vmInsert_keys_nodup base k1 v1 hbase
      · split
        · exact vmErase_keys_nodup base k1 hbase
        · exact hbase
    rw [ih _ k hnd.2 hbase2]
    by_cases hk : k1 = k
    · subst hk
      have hrest : vmFind rest k1 = none := (vmFind_eq_none rest k1).mpr hnd.1
      rw [hrest]
      rw [show vmFind ((k1, v1) :: rest) k1 = some v1 from by rw [vmFind, if_pos rfl]]
      show vmFind (if v1 = WHITEOUT ∨ v1 = OPAQUE then vmInsert base k1 v1
          else if v1 = NOTEXIST then vmErase base k1 else base) k1 =
        if v1 = WHITEOUT ∨ v1 = OPAQUE then some v1
        else if v1 = NOTEXIST then none else vmFind base k1
      by_cases hd : v1 = WHITEOUT ∨ v1 = OPAQUE
      · rw [if_pos hd, if_pos hd, vmFind_insert_self]
      · rw [if_neg hd, if_neg hd]
        by_cases hne : v1 = NOTEXIST
        · rw [if_pos hne, if_pos hne]
          exact vmFind_erase_self base k1 hbase
        · rw [if_neg hne, if_neg hne]
    · rw [show vmFind ((k1, v1) :: rest) k = vmFind rest k from by
        rw [vmFind, if_neg hk]]
      have hbfind : vmFind (if v1 = WHITEOUT ∨ v1 = OPAQUE then vmInsert base k1 v1
          else if v1 = NOTEXIST then vmErase base k1 else base) k = vmFind base k := by
        split
        · exact vmFind_insert_ne _ _ _ _ (fun he => hk he.symm)
        · split
          · exact vmFind_erase_ne _ _ _ (fun he => hk he.symm)
          · rfl
      rw [hbfind]

/-- A transaction with an empty to-be-written map writes nothing and
returns 0. -/
theorem writeTransaction_incr_nil (pm : Pathmap) (fs : Fs) (incr sync : Bool)
    (ofs0 : Nat) (h : (pm.writeBegin incr).1 = []) :
    pm.writeTransaction fs incr ofs0 sync = (0, (pm.writeBegin incr).2, fs) := by
  rw [Pathmap.writeTransaction]
  rw [h]
  rw [wtLoop_nil]
  split
  · next heq => cases heq
  next acc2 cur2 chi2 ofs1 fs1 heq =>
  injection heq with h1 h2 h3 h4 h5
  subst h1
  subst h2
  subst h3
  subst h4
  subst h5
  rw [if_neg (by simp)]
  rw [wtFinish_ok]
  rw [if_pos rfl]
  rw [Pathmap.writeEnd]
  rw [if_neg (by omega)]
  rw [if_neg (by omega)]

/-- Replaying a serialised incremental transaction commits exactly its
records onto the in-memory map. -/
theorem readTransaction_serTx (vmOut : Vm) (vm : Vm) (ofs : Nat) (hne : vmOut ≠ []) :
    ∃ ofs2, readTransaction (serTx vmOut true) vm ofs =
      (1, [], applyTmp vm (tmpOf (vmOut.map (fun kv => (kv.2 &&& MASK, kv.1))) []),
        ofs2) := by
  have hcur : 0 < (serChunks [] [] 49
      (vmOut.map (fun kv => (kv.2 &&& MASK, kv.1)))).cur.length :=
    serChunks_cur_pos _ _ _ _ (Or.inr (by simpa using List.length_pos.mpr hne))
  obtain ⟨ofs2, hrec⟩ := chunkLoop_ser (vmOut.map (fun kv => (kv.2 &&& MASK, kv.1)))
    [] [] 49 false vm ofs 65 []
    (fun r hr => absurd hr (List.not_mem_nil r))
    (fun r hr => absurd hr (List.not_mem_nil r))
    (maskedD_map vmOut) (Or.inl ⟨rfl, rfl⟩) (Or.inr rfl)
  rw [List.append_nil] at hrec
  rw [show tmpOf [] [] = ([] : Vm) from rfl] at hrec
  rw [if_neg (by decide)] at hrec
  rw [show ([] : Digest) ++ [] ++ (vmOut.map (fun kv => (kv.2 &&& MASK, kv.1))) =
    vmOut.map (fun kv => (kv.2 &&& MASK, kv.1)) from by simp] at hrec
  refine ⟨ofs2, ?_⟩
  rw [readTransaction]
  rw [serTx, serFin, if_pos hcur]
  rw [if_pos rfl]
  exact hrec

/-- Committing a temp map with distinct keys onto an empty base keeps
exactly the durable kinds. -/
theorem applyTmp_find_nil (tmp : Vm) (k : Pathkey) (hnd : ((tmp.map Prod.fst).Nodup)) :
    vmFind (applyTmp [] tmp) k =
      (match vmFind tmp k with
      | some v => if v = WHITEOUT ∨ v = OPAQUE then some v else none
      | none => none) := by
  rw [applyTmp_find tmp [] k hnd (by simp)]
  cases hf : vmFind tmp k with
  | none => rfl
  | some v =>
    show (if v = WHITEOUT ∨ v = OPAQUE then some v
        else if v = NOTEXIST then none else vmFind ([] : Vm) k) =
      (if v = WHITEOUT ∨ v = OPAQUE then some v else none)
    by_cases hd : v = WHITEOUT ∨ v = OPAQUE
    · rw [if_pos hd, if_pos hd]
    · rw [if_neg hd, if_neg hd]
      by_cases hn2 : v = NOTEXIST
      · rw [if_pos hn2]
      · rw [if_neg hn2]
        rfl

/-- C1: round-trip of persistence.  Open on an empty backing file, apply
any sequence of `Set` calls, `Write`, and reopen from the written file:
the reloaded map holds exactly the keys whose kind at `Write` time was
`WHITEOUT` or `OPAQUE`, each mapped to that bare kind (so with `DIRT`
clear); keys whose kind was an index value (or `UNKNOWN`) are absent. -/
theorem C1_roundtrip (ci : Bool) (sets : List (String × Nat)) (sync : Bool)
    (k : Pathkey) :
    vmFind ((OpenPathmap
        ((applySets (OpenPathmap emptyFs ci).2 sets).Write emptyFs sync).2.2 ci).2).vm
        k =
      (match vmFind (applySets (OpenPathmap emptyFs ci).2 sets).vm k with
      | some cell =>
        if cell &&& MASK = WHITEOUT ∨ cell &&& MASK = OPAQUE then some (cell &&& MASK)
        else none
      | none => none) := by
  rw [OpenPathmap_emptyFs]
  rw [show ((0 : Int), emptyPm ci).2 = emptyPm ci from rfl]
  have hinv : SInv (applySets (emptyPm ci) sets) :=
    sInv_applySets sets (emptyPm ci) (sInv_empty ci)
  have hofs : (applySets (emptyPm ci) sets).ofs = 0 := by
    rw [applySets_ofs]
    rfl
  rw [Pathmap.Write]
  rw [if_neg (by
    rw [hofs, Nat.zero_div]
    intro hcon
    omega)]
  rw [hofs]
  conv_lhs => rw [show (0 : Nat) = Pathkeylen * emptyFs.recs.length from rfl]
  by_cases hne : ((applySets (emptyPm ci) sets).writeBegin true).1 = []
  · rw [writeTransaction_incr_nil _ emptyFs true sync _ hne]
    rw [show ((0 : Int), ((applySets (emptyPm ci) sets).writeBegin true).2,
      emptyFs).2.2 = emptyFs from rfl]
    rw [OpenPathmap_emptyFs]
    rw [show ((0 : Int), emptyPm ci).2 = emptyPm ci from rfl]
    have hdl : (applySets (emptyPm ci) sets).dl = [] := by
      have hk := writeBegin_keys _ hinv.1
      rw [hne] at hk
      simpa using hk.symm
    cases hf : vmFind (applySets (emptyPm ci) sets).vm k with
    | none => rfl
    | some cell =>
      have hnd2 : ¬(cell &&& MASK = WHITEOUT ∨ cell &&& MASK = OPAQUE) := by
        intro hdur
        have hd := hinv.2.2.2 k cell hf hdur
        have hmem := (hinv.2.1 k cell hf).mp hd
        rw [hdl] at hmem
        exact List.not_mem_nil k hmem
      show vmFind (emptyPm ci).vm k =
        (if cell &&& MASK = WHITEOUT ∨ cell &&& MASK = OPAQUE then some (cell &&& MASK)
        else none)
      rw [if_neg hnd2]
      rfl
  · rw [writeTransaction_incr _ emptyFs sync rfl rfl rfl hne]
    simp only [OpenPathmap, Pathmap.read]
    rw [show (emptyPm ci).vm = ([] : Vm) from rfl]
    rw [show (emptyPm ci).ofs = 0 from rfl]
    rw [show emptyFs.recs = ([] : List DiskRec) from rfl]
    rw [List.nil_append]
    obtain ⟨ofs2, hrt⟩ :=
      readTransaction_serTx ((applySets (emptyPm ci) sets).writeBegin true).1 [] 0 hne
    have hrl : readLoop (serTx ((applySets (emptyPm ci) sets).writeBegin true).1 true)
        [] 0 =
        (1, applyTmp []
          (tmpOf ((((applySets (emptyPm ci) sets).writeBegin true).1).map
            (fun kv => (kv.2 &&& MASK, kv.1))) []), ofs2) := by
      rw [readLoop_step _ _ _ _ _ _ _ hrt]
      rw [if_neg (by omega)]
      rw [if_neg (by omega)]
      rw [readLoop_nil]
    rw [hrl]
    rw [if_neg (by norm_num)]
    show vmFind (applyTmp []
        (tmpOf ((((applySets (emptyPm ci) sets).writeBegin true).1).map
          (fun kv => (kv.2 &&& MASK, kv.1))) [])) k = _
    have hkeys := writeBegin_keys _ hinv.1
    have hndout : ((((applySets (emptyPm ci) sets).writeBegin true).1).map
        Prod.fst).Nodup := by
      rw [hkeys]
      exact hinv.1
    rw [tmpAll_eq _ hndout]
    rw [applyTmp_find_nil _ k (by
      simpa [List.map_map, Function.comp] using hndout)]
    rw [vmFind_map _ (fun v => v &&& MASK) k]
    by_cases hmem : k ∈ (applySets (emptyPm ci) sets).dl
    · rw [(writeBegin_find _ hinv.1 k).1 hmem]
      cases hf : vmFind (applySets (emptyPm ci) sets).vm k with
      | none => exact absurd hf (hinv.2.2.1 k hmem)
      | some cell =>
        simp only [Option.getD_some, Option.map_some']
        show (if wbEmit cell &&& MASK = WHITEOUT ∨ wbEmit cell &&& MASK = OPAQUE
            then some (wbEmit cell &&& MASK) else none) =
          (if cell &&& MASK = WHITEOUT ∨ cell &&& MASK = OPAQUE
            then some (cell &&& MASK) else none)
        rw [wbEmit]
        by_cases hdur : cell &&& MASK = WHITEOUT ∨ cell &&& MASK = OPAQUE
        · rw [if_pos hdur, if_pos hdur]
        · rw [if_neg hdur, if_neg hdur]
          rw [show NOTEXIST &&& MASK = NOTEXIST from by decide]
          rw [if_neg (by decide)]
    · rw [(writeBegin_find _ hinv.1 k).2 hmem]
      cases hf : vmFind (applySets (emptyPm ci) sets).vm k with
      | none => rfl
      | some cell =>
        have hnd2 : ¬(cell &&& MASK = WHITEOUT ∨ cell &&& MASK = OPAQUE) := by
          intro hdur
          exact hmem ((hinv.2.1 k cell hf).mp (hinv.2.2.2 k cell hf hdur))
        show (none : Option Nat) =
          (if cell &&& MASK = WHITEOUT ∨ cell &&& MASK = OPAQUE
            then some (cell &&& MASK) else none)
        rw [if_neg hnd2]

/-! ## Full (compacting) transactions appended at end of file -/

/-- A full transaction on a reliable nonempty file, appended at the current
end of file, writes exactly `serTx` (final command `'S'`) and reports
success; no truncation happens because the write offset is not 0. -/
theorem writeTransaction_full (pm : Pathmap) (fs : Fs) (sync : Bool)
    (hw : fs.werr = none) (ht : fs.torn = 0) (hf : fs.ferr = none)
    (hnz : 0 < fs.recs.length)
    (hne : (pm.writeBegin false).1 ≠ []) :
    pm.writeTransaction fs false (Pathkeylen * fs.recs.length) sync =
      (1,
        (pm.writeBegin false).2.writeEnd 1
          (Pathkeylen * (fs.recs.length + (serTx (pm.writeBegin false).1 false).length))
          (pm.writeBegin false).1,
        { fs with recs := fs.recs ++ serTx (pm.writeBegin false).1 false }) := by
  rw [Pathmap.writeTransaction]
  rw [wtLoop_ser ((pm.writeBegin false).1) [] [] 49 fs hw ht]
  set S := serChunks [] [] 49
    (List.map (fun kv => (kv.2 &&& MASK, kv.1)) (pm.writeBegin false).1) with hS
  have hcur : 0 < S.cur.length := by
    rw [hS]
    exact serChunks_cur_pos _ _ _ _ (Or.inr (by simpa using List.length_pos.mpr hne))
  split
  · next e ofs1 fs1 heq => cases heq
  next acc2 cur2 chi2 ofs1 fs1 heq =>
  injection heq with h1 h2 h3 h4 h5
  subst h1
  subst h2
  subst h3
  subst h4
  subst h5
  rw [if_pos hcur]
  have hElen : (Fs.mk (fs.recs ++ S.recs) fs.torn fs.werr fs.ferr fs.terr).recs.length =
      fs.recs.length + S.recs.length := by simp
  rw [← hElen]
  rw [if_neg (by simp)]
  rw [flushChunk_append (Fs.mk (fs.recs ++ S.recs) fs.torn fs.werr fs.ferr fs.terr)
    S.acc S.cur S.chi 83 hw]
  rw [wtFinish_ok]
  rw [if_neg (by rw [hElen]; simp only [Pathkeylen]; omega)]
  rw [if_neg (by simp [Fs.fsync, hf])]
  simp only [Bool.not_false, Bool.true_and]
  rw [if_neg (by
    simp only [decide_eq_true_eq, Pathkeylen]
    omega)]
  rw [serTx, ← hS, serFin, if_pos hcur]
  simp only [if_neg (by simp : ¬(false = true))]
  congr 2
  · congr 1
    rw [hElen]
    simp [dataRecs, Pathkeylen]
    omega
  · simp only [List.append_assoc, List.cons_append]
    congr 1
    exact ht.symm

/-- C4, corrected: when `Write` finds the log bloated it writes two FULL
transactions (both with `incremental = false`): the first is appended at
the current end of file and its final chunk carries command `'S' = 83`
(not an incremental `'A'` transaction of only the dirty keys), and the
second full transaction is then written starting at offset 0 (where the
truncation flag is set). -/
theorem C4_compaction (pm : Pathmap) (fs : Fs) (sync : Bool)
    (hw : fs.werr = none) (ht : fs.torn = 0) (hf : fs.ferr = none)
    (hofs : pm.ofs = Pathkeylen * fs.recs.length) (hnz : 0 < fs.recs.length)
    (hbloat : 1024 < pm.ofs / Pathkeylen ∧ 2 * pm.vm.length < pm.ofs / Pathkeylen)
    (hne : (pm.writeBegin false).1 ≠ []) :
    pm.Write fs sync =
      ((pm.writeBegin false).2.writeEnd 1
          (Pathkeylen * (fs.recs.length +
            (serTx (pm.writeBegin false).1 false).length))
          (pm.writeBegin false).1).writeTransaction
        { fs with recs := fs.recs ++ serTx (pm.writeBegin false).1 false } false 0
        sync ∧
    serTx (pm.writeBegin false).1 false =
      (serChunks [] [] 49 ((pm.writeBegin false).1.map
          (fun kv => (kv.2 &&& MASK, kv.1)))).recs ++
        DiskRec.header
          (serChunks [] [] 49 ((pm.writeBegin false).1.map
            (fun kv => (kv.2 &&& MASK, kv.1)))).chi
          83
          (serChunks [] [] 49 ((pm.writeBegin false).1.map
            (fun kv => (kv.2 &&& MASK, kv.1)))).cur.length
          ((serChunks [] [] 49 ((pm.writeBegin false).1.map
            (fun kv => (kv.2 &&& MASK, kv.1)))).acc ++
           (serChunks [] [] 49 ((pm.writeBegin false).1.map
            (fun kv => (kv.2 &&& MASK, kv.1)))).cur) ::
        dataRecs (serChunks [] [] 49 ((pm.writeBegin false).1.map
          (fun kv => (kv.2 &&& MASK, kv.1)))).cur := by
  constructor
  · rw [Pathmap.Write]
    rw [if_pos hbloat]
    rw [hofs]
    rw [writeTransaction_full pm fs sync hw ht hf hnz hne]
    rw [if_neg (by simp)]
  · rw [serTx, serFin]
    rw [if_pos (serChunks_cur_pos _ _ _ _
      (Or.inr (by simpa using List.length_pos.mpr hne)))]
    rw [if_neg (by simp : ¬(false = true))]

/-- A full transaction whose records are written but whose fsync fails
(with an error other than `-ENOSYS`) returns the fsync error, leaving the
appended records in the file. -/
theorem writeTransaction_full_ferr (pm : Pathmap) (fs : Fs) (e : Int)
    (hw : fs.werr = none) (ht : fs.torn = 0) (hfe : fs.ferr = some e)
    (he : e < 0) (hne38 : e ≠ -38)
    (hne : (pm.writeBegin false).1 ≠ []) :
    pm.writeTransaction fs false (Pathkeylen * fs.recs.length) true =
      (e,
        (pm.writeBegin false).2.writeEnd e
          (Pathkeylen * (fs.recs.length + (serTx (pm.writeBegin false).1 false).length))
          (pm.writeBegin false).1,
        { fs with recs := fs.recs ++ serTx (pm.writeBegin false).1 false }) := by
  rw [Pathmap.writeTransaction]
  rw [wtLoop_ser ((pm.writeBegin false).1) [] [] 49 fs hw ht]
  set S := serChunks [] [] 49
    (List.map (fun kv => (kv.2 &&& MASK, kv.1)) (pm.writeBegin false).1) with hS
  have hcur : 0 < S.cur.length := by
    rw [hS]
    exact serChunks_cur_pos _ _ _ _ (Or.inr (by simpa using List.length_pos.mpr hne))
  split
  · next e2 ofs1 fs1 heq => cases heq
  next acc2 cur2 chi2 ofs1 fs1 heq =>
  injection heq with h1 h2 h3 h4 h5
  subst h1
  subst h2
  subst h3
  subst h4
  subst h5
  rw [if_pos hcur]
  have hElen : (Fs.mk (fs.recs ++ S.recs) fs.torn fs.werr fs.ferr fs.terr).recs.length =
      fs.recs.length + S.recs.length := by simp
  rw [← hElen]
  rw [if_neg (by simp)]
  rw [flushChunk_append (Fs.mk (fs.recs ++ S.recs) fs.torn fs.werr fs.ferr fs.terr)
    S.acc S.cur S.chi 83 hw]
  rw [wtFinish_ok]
  rw [if_neg (by rw [hElen]; simp only [Pathkeylen]; omega)]
  rw [if_pos rfl]
  simp only [Fs.fsync, hfe, Option.getD_some]
  rw [if_pos ⟨by omega, hne38⟩]
  rw [serTx, ← hS, serFin, if_pos hcur]
  simp only [if_neg (by simp : ¬(false = true))]
  congr 2
  · congr 1
    rw [hElen]
    simp [dataRecs, Pathkeylen]
    omega
  · simp only [List.append_assoc, List.cons_append]
    congr 1
    exact ht.symm

/-- A bloated map: one durable, clean, non-dirty cell over a 2001-record
log. -/
def pmBloat : Pathmap :=
  { caseins := false, vm := [(['/', 'a'], WHITEOUT)], dl := [], ofs := 32016 }

def fsBloat : Fs :=
  { recs := List.replicate 2001 (DiskRec.data 125 ['x']), torn := 0, werr := none,
    ferr := some (-5), terr := none }

def fsW4 : Fs :=
  { recs := List.replicate 2001 (DiskRec.data 125 ['x']), torn := 0, werr := none,
    ferr := none, terr := none }

theorem fsBloat_len : fsBloat.recs.length = 2001 := by
  rw [show fsBloat.recs = List.replicate 2001 (DiskRec.data 125 ['x']) from rfl]
  rw [List.length_replicate]

theorem fsW4_len : fsW4.recs.length = 2001 := by
  rw [show fsW4.recs = List.replicate 2001 (DiskRec.data 125 ['x']) from rfl]
  rw [List.length_replicate]

/-- C4 witness: the compaction hypotheses hold at a concrete bloated map
and the first transaction of `Write` is the appended full one. -/
theorem C4_witness :
    (pmBloat.ofs = Pathkeylen * fsW4.recs.length ∧ 0 < fsW4.recs.length ∧
      (1024 < pmBloat.ofs / Pathkeylen ∧
        2 * pmBloat.vm.length < pmBloat.ofs / Pathkeylen) ∧
      (pmBloat.writeBegin false).1 ≠ []) ∧
    pmBloat.Write fsW4 true =
      ((pmBloat.writeBegin false).2.writeEnd 1
          (Pathkeylen * (fsW4.recs.length +
            (serTx (pmBloat.writeBegin false).1 false).length))
          (pmBloat.writeBegin false).1).writeTransaction
        { fsW4 with recs := fsW4.recs ++ serTx (pmBloat.writeBegin false).1 false }
        false 0 true :=
  ⟨⟨by rw [fsW4_len]; rfl, by rw [fsW4_len]; decide, by decide, by decide⟩,
    (C4_compaction pmBloat fsW4 true rfl rfl rfl (by rw [fsW4_len]; rfl)
      (by rw [fsW4_len]; decide) (by decide) (by decide)).1⟩

/-- C4 counterexample to the frozen claim: in a concrete bloated state with
an empty dirty list, the first transaction `Write` appends at end of file
is a full one — its final-chunk header carries command `'S' = 83`, not
`'A' = 65`, and it holds a record for a key that is not dirty (the dirty
list is empty). -/
theorem C4_counterexample :
    ((pmBloat.Write fsBloat true).2.2.recs.drop 2001 =
      [DiskRec.header 49 83 1 [(125, ['/', 'a'])], DiskRec.data 125 ['/', 'a']]) ∧
    pmBloat.dl = [] ∧
    1024 < pmBloat.ofs / Pathkeylen ∧
    2 * pmBloat.vm.length < pmBloat.ofs / Pathkeylen := by
  refine ⟨?_, by decide, by decide, by decide⟩
  rw [Pathmap.Write]
  rw [if_pos (by decide)]
  have hofs : pmBloat.ofs = Pathkeylen * fsBloat.recs.length := by
    rw [fsBloat_len]
    rfl
  rw [hofs]
  rw [writeTransaction_full_ferr pmBloat fsBloat (-5) rfl rfl rfl (by decide)
    (by decide) (by decide)]
  rw [if_pos (by norm_num)]
  show (fsBloat.recs ++ serTx (pmBloat.writeBegin false).1 false).drop 2001 = _
  rw [show (2001 : Nat) = fsBloat.recs.length from fsBloat_len.symm]
  rw [List.drop_left]
  decide

/-! ## Claim C7: compaction with nothing durable -/

theorem writeBegin_full (pm : Pathmap) :
    pm.writeBegin false =
      (pm.vm.filter (fun kv => kv.2 &&& MASK = WHITEOUT ∨ kv.2 &&& MASK = OPAQUE),
        { pm with vm := pm.vm.map (fun kv => (kv.1, kv.2 &&& MASK)), dl := [] }) := rfl

theorem filter_durable_mask (vm : Vm) :
    ((vm.map (fun kv => (kv.1, kv.2 &&& MASK))).filter
        (fun kv => kv.2 &&& MASK = WHITEOUT ∨ kv.2 &&& MASK = OPAQUE)) =
      (vm.filter (fun kv => kv.2 &&& MASK = WHITEOUT ∨ kv.2 &&& MASK = OPAQUE)).map
        (fun kv => (kv.1, kv.2 &&& MASK)) := by
  induction vm with
  | nil => rfl
  | cons kv rest ih =>
    simp only [List.map_cons]
    by_cases hp : kv.2 &&& MASK = WHITEOUT ∨ kv.2 &&& MASK = OPAQUE
    · rw [List.filter_cons_of_pos (by simpa [and_mask_idem] using hp)]
      rw [List.filter_cons_of_pos (by simpa using hp)]
      rw [List.map_cons, ih]
    · rw [List.filter_cons_of_neg (by simpa [and_mask_idem] using hp)]
      rw [List.filter_cons_of_neg (by simpa using hp)]
      exact ih

/-- An empty full `writeBegin` output stays empty after another full
`writeBegin` (masking cells does not change their kinds). -/
theorem writeBegin_full_idem (pm : Pathmap) (h : (pm.writeBegin false).1 = []) :
    (((pm.writeBegin false).2).writeBegin false).1 = [] := by
  rw [writeBegin_full] at h
  rw [writeBegin_full, writeBegin_full]
  simp only at h ⊢
  rw [filter_durable_mask, h]
  rfl

/-- C7, corrected: (a) `Write` takes the compacting path only when the log
holds more than 1024 records and more than twice the map size — otherwise
(as for 2001 records over a 2000-entry map) it appends one incremental
transaction; (b) when the compacting path is taken but the map holds
nothing durable, both full transactions are empty, so `Write` returns 0
before any truncation and the backing file is left completely unchanged. -/
theorem C7_compaction_nothing_durable :
    (∀ (pm : Pathmap) (fs : Fs) (sync : Bool),
      ¬(1024 < pm.ofs / Pathkeylen ∧ 2 * pm.vm.length < pm.ofs / Pathkeylen) →
      pm.Write fs sync = pm.writeTransaction fs true pm.ofs sync) ∧
    (∀ (pm : Pathmap) (fs : Fs) (sync : Bool),
      (1024 < pm.ofs / Pathkeylen ∧ 2 * pm.vm.length < pm.ofs / Pathkeylen) →
      (pm.writeBegin false).1 = [] →
      pm.Write fs sync = (0, ((pm.writeBegin false).2.writeBegin false).2, fs)) := by
  constructor
  · intro pm fs sync hcon
    rw [Pathmap.Write]
    rw [if_neg hcon]
  · intro pm fs sync hbloat hempty
    rw [Pathmap.Write]
    rw [if_pos hbloat]
    rw [writeTransaction_incr_nil pm fs false sync pm.ofs hempty]
    rw [if_neg (by norm_num)]
    rw [writeTransaction_incr_nil _ fs false sync 0 (writeBegin_full_idem pm hempty)]

/-- The serialised form of a transaction that fits one chunk: a single
header plus its data records. -/
theorem serTx_len_small (vmOut : Vm) (incr : Bool) (h : vmOut.length ≤ 4095)
    (hne : vmOut ≠ []) :
    (serTx vmOut incr).length = vmOut.length + 1 := by
  rw [serTx, serChunks_small _ _ _ _ (by simpa using h)]
  rw [serFin]
  rw [if_pos (by simpa using List.length_pos.mpr hne)]
  simp [dataRecs]

/-- A bloated map holding a single clean index cell: nothing durable. -/
def pmC7 : Pathmap :=
  { caseins := false, vm := [(['/', 'a'], 5)], dl := [], ofs := 32016 }

/-- C7 witness: a map of one clean index cell over a 2001-record log is
bloated but has nothing durable: `Write` returns 0 and leaves the file
untouched; and an empty map over an empty log does not compact. -/
theorem C7_witness :
    (¬(1024 < (emptyPm false).ofs / Pathkeylen ∧
        2 * (emptyPm false).vm.length < (emptyPm false).ofs / Pathkeylen) ∧
      (emptyPm false).Write emptyFs true =
        (emptyPm false).writeTransaction emptyFs true (emptyPm false).ofs true) ∧
    ((1024 < pmC7.ofs / Pathkeylen ∧ 2 * pmC7.vm.length < pmC7.ofs / Pathkeylen) ∧
      (pmC7.writeBegin false).1 = [] ∧
      pmC7.Write emptyFs true = (0, ((pmC7.writeBegin false).2.writeBegin false).2,
        emptyFs)) :=
  ⟨⟨by decide, C7_compaction_nothing_durable.1 (emptyPm false) emptyFs true (by decide)⟩,
    ⟨by decide, by decide,
      C7_compaction_nothing_durable.2 pmC7 emptyFs true (by decide) (by decide)⟩⟩

/-- A family of `n` distinct path keys. -/
def ksN (n : Nat) : List Pathkey := (List.range n).map (fun i => List.replicate i 'a')

theorem ksN_nodup (n : Nat) : (ksN n).Nodup := by
  refine List.Nodup.map ?_ (List.nodup_range n)
  intro a b h
  have h2 := congrArg List.length h
  simpa using h2

theorem ksN_len (n : Nat) : (ksN n).length = n := by
  rw [ksN, List.length_map, List.length_range]

/-- The in-memory state of the claim's scenario: 2000 whiteouts were
persisted (2001 records on disk, `ofs = 32016`) and then all 2000 paths
were `Set` back to an index kind, leaving every cell dirty with an index
value. -/
def pm2000 : Pathmap :=
  { caseins := false, vm := (ksN 2000).map (fun k => (k, DIRT ||| 5)), dl := ksN 2000,
    ofs := 32016 }

def fs2000 : Fs :=
  { recs := List.replicate 2001 (DiskRec.data 125 ['x']), torn := 0, werr := none,
    ferr := none, terr := none }

theorem pm2000_vmlen : pm2000.vm.length = 2000 := by
  have h : pm2000.vm = (ksN 2000).map (fun k => (k, DIRT ||| 5)) := by
    simp only [pm2000]
  rw [h, List.length_map, ksN_len]

theorem fs2000_len : fs2000.recs.length = 2001 := by
  rw [show fs2000.recs = List.replicate 2001 (DiskRec.data 125 ['x']) from rfl]
  rw [List.length_replicate]

theorem pm2000_outlen : (pm2000.writeBegin true).1.length = 2000 := by
  have h : pm2000.dl = ksN 2000 := by
    simp only [pm2000]
  rw [writeBegin_out_length pm2000 (by rw [h]; exact ksN_nodup 2000)]
  rw [h, ksN_len]

/-- C7 counterexample to the frozen claim: in the claim's scenario (2001
records on disk, 2000 dirty index cells) the next `Write` does NOT take
the compacting path (2001 is not more than twice 2000); it appends one
incremental transaction of 2001 records and returns 1, leaving the file
at 4002 records — not truncated to a header, and not returning 0. -/
theorem C7_counterexample :
    ¬(1024 < pm2000.ofs / Pathkeylen ∧ 2 * pm2000.vm.length < pm2000.ofs / Pathkeylen) ∧
    (pm2000.Write fs2000 true).1 = 1 ∧
    (pm2000.Write fs2000 true).2.2.recs.length = 4002 := by
  have hcon : ¬(1024 < pm2000.ofs / Pathkeylen ∧
      2 * pm2000.vm.length < pm2000.ofs / Pathkeylen) := by
    rw [pm2000_vmlen]
    intro hcc
    have h1 : pm2000.ofs / Pathkeylen = 2001 := by decide
    omega
  refine ⟨hcon, ?_⟩
  rw [Pathmap.Write]
  rw [if_neg hcon]
  have hofs : pm2000.ofs = Pathkeylen * fs2000.recs.length := by
    rw [fs2000_len]
    rfl
  have hne : (pm2000.writeBegin true).1 ≠ [] := by
    intro h
    have h2 := pm2000_outlen
    rw [h] at h2
    simp at h2
  rw [hofs]
  rw [writeTransaction_incr pm2000 fs2000 true rfl rfl rfl hne]
  refine ⟨rfl, ?_⟩
  show (fs2000.recs ++ serTx (pm2000.writeBegin true).1 true).length = 4002
  rw [List.length_append, fs2000_len]
  rw [serTx_len_small _ _ (by rw [pm2000_outlen]; omega)
    (by
      intro h
      have h2 := pm2000_outlen
      rw [h] at h2
      simp at h2)]
  rw [pm2000_outlen]

end Unionfs
